import Mathlib

set_option linter.unusedVariables false

/-!
Verification of the wordnet repository core: the `Digraph` class with its
dense-index remapping, the `ShortestCommonAncestor` two-colour multi-source
BFS, and the `Outcast` selection loop.  The C++ source (src/wordnet.cpp and
its header) is shallowly embedded below: `unsigned` values are natural
numbers reduced modulo 2^32 at the operations where the C++ can wrap,
`std::vector` becomes `List`, the `std::unordered_map` id-to-vertex table
becomes an association list queried with `List.lookup` (the map is only
ever queried pointwise, so insertion order is irrelevant to observations),
and a call of `id_vert_map.at` that would throw `std::out_of_range` makes
the embedded query return `none`.
-/

namespace Wordnet

/-- The wrap-around modulus of the C++ type unsigned, 2 to the 32. -/
def U32 : Nat := 4294967296

/-- The value of std::numeric_limits of unsigned max, 2 to the 32 minus 1. -/
def UMAX : Nat := 4294967295

/-- Model of the C++ class Digraph: `graph` is the dense adjacency table
(vert to list of verts), `idVertMap` the id-to-vert hash map kept as an
association list in insertion order, `vertIdMap` the inverse vert-to-id
vector. -/
structure Digraph where
  graph : List (List Nat)
  idVertMap : List (Nat × Nat)
  vertIdMap : List Nat
deriving Repr, DecidableEq

/-- A default-constructed Digraph: all three containers empty. -/
def Digraph.empty : Digraph := ⟨[], [], []⟩

/-- Model of Digraph::get_or_add_vert: look the external id up in
id_vert_map; if absent, register it with the next dense index
(vert_id_map.size(), truncated to unsigned) and give it an empty adjacency
list.  Returns the updated graph and the dense index. -/
def Digraph.get_or_add_vert (d : Digraph) (v : Nat) : Digraph × Nat :=
  match d.idVertMap.lookup v with
  | some vert => (d, vert)
  | none =>
    let vert := d.vertIdMap.length % U32
    (⟨d.graph ++ [[]], d.idVertMap ++ [(v, vert)], d.vertIdMap ++ [v]⟩, vert)

/-- Model of Digraph::add_edge: register both endpoints (v first, then w,
matching the C++ evaluation order) and append the dense index of w to the
adjacency list of v. -/
def Digraph.add_edge (d : Digraph) (v w : Nat) : Digraph :=
  let p1 := d.get_or_add_vert v
  let p2 := p1.1.get_or_add_vert w
  ⟨p2.1.graph.set p1.2 (p2.1.graph.getD p1.2 [] ++ [p2.2]), p2.1.idVertMap, p2.1.vertIdMap⟩

/-- Model of Digraph::get_neighbours: if the id is registered, copy the
adjacency list of its dense vertex and translate every entry back through
vert_id_map; otherwise return the empty list. -/
def Digraph.get_neighbours (d : Digraph) (v : Nat) : List Nat :=
  match d.idVertMap.lookup v with
  | some vert => (d.graph.getD vert []).map (fun n => d.vertIdMap.getD n 0)
  | none => []

/-- Model of Digraph::size: the number of registered vertices. -/
def Digraph.size (d : Digraph) : Nat := d.graph.length

/-- Model of Digraph::reset_graph_size: the C++ method only calls reserve
on the three containers, which changes capacity but no semantic content,
so the model is the identity on the digraph. -/
def Digraph.reset_graph_size (d : Digraph) (size : Nat) : Digraph := d

/-- The per-query transient state of ShortestCommonAncestor::ancestor_length:
the distance and colour arrays, the BFS queue, and the running minimum
(min_distance together with min_distance_ancestor). -/
structure BfsState where
  distance : List Nat
  color : List Nat
  queue : List Nat
  minDist : Nat
  minAnc : Nat
deriving Repr, DecidableEq

namespace ShortestCommonAncestor

/-- The first seeding loop of ancestor_length: every id of subset_a is
looked up (none models the std::out_of_range throw of .at), its vertex is
coloured 1 and enqueued. -/
def seedA (d : Digraph) : List Nat → BfsState → Option BfsState
  | [], s => some s
  | id :: rest, s =>
    match d.idVertMap.lookup id with
    | none => none
    | some vert =>
      seedA d rest ⟨s.distance, s.color.set vert 1, s.queue ++ [vert], s.minDist, s.minAnc⟩

/-- The second seeding loop of ancestor_length: every id of subset_b is
looked up; a vertex already coloured 1 causes the early return of the pair
(id, 0), modelled by Sum.inl; otherwise the vertex is coloured 2 and
enqueued and the loop continues. -/
def seedB (d : Digraph) : List Nat → BfsState → Option ((Nat × Nat) ⊕ BfsState)
  | [], s => some (Sum.inr s)
  | id :: rest, s =>
    match d.idVertMap.lookup id with
    | none => none
    | some vert =>
      if s.color.getD vert 0 = 1 then some (Sum.inl (id, 0))
      else seedB d rest ⟨s.distance, s.color.set vert 2, s.queue ++ [vert], s.minDist, s.minAnc⟩

/-- The inner for loop of the BFS: scan the outgoing neighbours of the
popped vertex in order; an unvisited neighbour inherits the colour and
distance plus one and is enqueued; a neighbour of the opposite colour is a
meeting event whose total distance updates the running minimum when
smaller. -/
def processNeighbours (vert : Nat) : List Nat → BfsState → BfsState
  | [], s => s
  | tv :: rest, s =>
    if s.color.getD tv 0 = 0 then
      processNeighbours vert rest
        ⟨s.distance.set tv ((s.distance.getD vert 0 + 1) % U32),
         s.color.set tv (s.color.getD vert 0),
         s.queue ++ [tv], s.minDist, s.minAnc⟩
    else if s.color.getD tv 0 ≠ s.color.getD vert 0 then
      if (s.distance.getD tv 0 + s.distance.getD vert 0 + 1) % U32 < s.minDist then
        processNeighbours vert rest
          ⟨s.distance, s.color, s.queue,
           (s.distance.getD tv 0 + s.distance.getD vert 0 + 1) % U32, tv⟩
      else processNeighbours vert rest s
    else processNeighbours vert rest s

/-- The while loop of the BFS: pop the front vertex and scan its
neighbours, until the queue is empty.  The extra fuel argument bounds the
number of loop iterations; lemma bfsLoop_runsOut below shows that under
the graph invariant the queue empties before the fuel does, so the model
agrees with the unbounded C++ loop. -/
def bfsLoop (g : List (List Nat)) : Nat → BfsState → BfsState
  | 0, s => s
  | fuel + 1, s =>
    match s.queue with
    | [] => s
    | vert :: rest =>
      bfsLoop g fuel
        (processNeighbours vert (g.getD vert [])
          ⟨s.distance, s.color, rest, s.minDist, s.minAnc⟩)

/-- The state at the top of ancestor_length: distance and colour arrays of
the graph size filled with zeroes, an empty queue, min_distance at the
unsigned maximum and min_distance_ancestor at zero. -/
def initState (d : Digraph) : BfsState :=
  ⟨List.replicate d.graph.length 0, List.replicate d.graph.length 0, [], UMAX, 0⟩

/-- Model of ShortestCommonAncestor::ancestor_length.  The result is none
exactly when an id_vert_map.at call throws; Sum.inl of seedB is the early
return for overlapping subsets; otherwise the BFS runs to completion and
the pair (vert_id_map subscripted by min_distance_ancestor, min_distance)
is returned. -/
def ancestor_length (d : Digraph) (subset_a subset_b : List Nat) : Option (Nat × Nat) :=
  match seedA d subset_a (initState d) with
  | none => none
  | some s1 =>
    match seedB d subset_b s1 with
    | none => none
    | some (Sum.inl res) => some res
    | some (Sum.inr s2) =>
      some (d.vertIdMap.getD
              (bfsLoop d.graph (subset_a.length + subset_b.length + d.graph.length + 1) s2).minAnc 0,
            (bfsLoop d.graph (subset_a.length + subset_b.length + d.graph.length + 1) s2).minDist)

/-- Model of ShortestCommonAncestor::length: the second component of
ancestor_length on singleton subsets. -/
def length (d : Digraph) (v w : Nat) : Option Nat :=
  (ancestor_length d [v] [w]).map Prod.snd

/-- Model of ShortestCommonAncestor::ancestor: the first component of
ancestor_length on singleton subsets. -/
def ancestor (d : Digraph) (v w : Nat) : Option Nat :=
  (ancestor_length d [v] [w]).map Prod.fst

end ShortestCommonAncestor

namespace Outcast

/-- The inner for loop of Outcast::outcast over the iterator j: for every
word xj after the word xi at position firstPos, the distance between xi
and xj is accumulated (with unsigned wrap) into both positions of the
distances array. -/
def innerLoop {α : Type} (dist : α → α → Nat) (xi : α) (firstPos : Nat) :
    List α → Nat → List Nat → List Nat
  | [], _, ds => ds
  | xj :: rest, secondPos, ds =>
    innerLoop dist xi firstPos rest (secondPos + 1)
      ((ds.set firstPos ((ds.getD firstPos 0 + dist xi xj) % U32)).set secondPos
        (((ds.set firstPos ((ds.getD firstPos 0 + dist xi xj) % U32)).getD secondPos 0
           + dist xi xj) % U32))

/-- The loop state of Outcast::outcast: the distances array, the variables
answer_word_number and answer_word_iterator, and max_dist_was_repeated. -/
structure OutState (α : Type) where
  distances : List Nat
  answer : Nat
  answerWord : Option α
  repeated : Bool

/-- The outer for loop of Outcast::outcast over the iterator i: run the
inner accumulation loop, then update the running maximum; a strictly
larger total (or the first iteration) takes over and clears the repeat
flag, an equal total sets the repeat flag. -/
def outerLoop {α : Type} (dist : α → α → Nat) : List α → Nat → OutState α → OutState α
  | [], _, st => st
  | xi :: rest, firstPos, st =>
    if (innerLoop dist xi firstPos rest (firstPos + 1) st.distances).getD firstPos 0 >
         (innerLoop dist xi firstPos rest (firstPos + 1) st.distances).getD st.answer 0
       ∨ firstPos = 0 then
      outerLoop dist rest (firstPos + 1)
        ⟨innerLoop dist xi firstPos rest (firstPos + 1) st.distances, firstPos, some xi, false⟩
    else if (innerLoop dist xi firstPos rest (firstPos + 1) st.distances).getD firstPos 0 =
              (innerLoop dist xi firstPos rest (firstPos + 1) st.distances).getD st.answer 0 then
      outerLoop dist rest (firstPos + 1)
        ⟨innerLoop dist xi firstPos rest (firstPos + 1) st.distances, st.answer, st.answerWord, true⟩
    else
      outerLoop dist rest (firstPos + 1)
        ⟨innerLoop dist xi firstPos rest (firstPos + 1) st.distances, st.answer, st.answerWord,
         st.repeated⟩

/-- Model of Outcast::outcast.  The words are the ascending enumeration of
the std::set of nouns, and dist is the WordNet distance oracle the loop
queries.  The empty C++ string result (groups of at most two words, or a
repeated maximal total) is modelled by none. -/
def outcast {α : Type} (dist : α → α → Nat) (nouns : List α) : Option α :=
  if nouns.length ≤ 2 then none
  else
    if (outerLoop dist nouns 0 ⟨List.replicate nouns.length 0, 0, none, false⟩).repeated then none
    else (outerLoop dist nouns 0 ⟨List.replicate nouns.length 0, 0, none, false⟩).answerWord

end Outcast

/-- A construction step of a digraph: one add_edge call or one
reset_graph_size (reserve) call. -/
inductive Op where
  | addEdge : Nat → Nat → Op
  | reserve : Nat → Op

/-- Apply one construction step. -/
def applyOp (d : Digraph) : Op → Digraph
  | Op.addEdge v w => d.add_edge v w
  | Op.reserve n => d.reset_graph_size n

/-- Apply a sequence of construction steps in order. -/
def applyOps (ops : List Op) (d : Digraph) : Digraph := ops.foldl applyOp d

/-- Well-formedness of a digraph, the invariant maintained by every
construction sequence: the three containers have equal cardinality, every
entry of id_vert_map points at an in-range dense index whose vert_id_map
cell holds the entry's external id, vert_id_map composed with the lookup
is the identity on dense indices, and every stored edge target is an
in-range dense index. -/
def WF (d : Digraph) : Prop :=
  d.graph.length = d.vertIdMap.length ∧
  d.idVertMap.length = d.vertIdMap.length ∧
  (∀ p ∈ d.idVertMap, p.2 < d.vertIdMap.length ∧ d.vertIdMap.getD p.2 0 = p.1) ∧
  (∀ i, i < d.vertIdMap.length → d.idVertMap.lookup (d.vertIdMap.getD i 0) = some i) ∧
  (∀ l ∈ d.graph, ∀ t ∈ l, t < d.graph.length)

instance (d : Digraph) : Decidable (WF d) := by
  unfold WF
  infer_instance

/-- A directed path of exactly k edges from u to v in the dense adjacency
table g, extended one edge at a time at the target end. -/
inductive PathLen (g : List (List Nat)) : Nat → Nat → Nat → Prop where
  | refl (u : Nat) : PathLen g u u 0
  | step {u v w k : Nat} : PathLen g u v k → w ∈ g.getD v [] → PathLen g u w (k + 1)

/-- The dense vertices of a list of external ids, in order, skipping
unregistered ids. -/
def vertsOf (d : Digraph) (ids : List Nat) : List Nat :=
  ids.filterMap (fun id => d.idVertMap.lookup id)

/-- Some dense vertex is reachable both from a seed vertex of A and from a
seed vertex of B, by directed paths of any lengths. -/
def commonReach (d : Digraph) (A B : List Nat) : Prop :=
  ∃ y va vb p q, va ∈ vertsOf d A ∧ vb ∈ vertsOf d B ∧
    PathLen d.graph va y p ∧ PathLen d.graph vb y q

/-- The number of coloured (nonzero) cells of a colour array. -/
def nonzeroCount (c : List Nat) : Nat := c.countP (fun x => x != 0)

/-- The termination potential of a BFS state: queue length plus number of
uncoloured cells.  Every iteration of the BFS loop decreases it by one. -/
def potential (s : BfsState) : Nat :=
  s.queue.length + (s.color.length - nonzeroCount s.color)

/-- The exit condition the BFS scan establishes for one directed edge from
u to tv: the target is coloured, and either it has the colour of u or the
running minimum is at most the meeting total of the edge. -/
def edgeOK (s : BfsState) (u tv : Nat) : Prop :=
  s.color.getD tv 0 ≠ 0 ∧
    (s.color.getD tv 0 = s.color.getD u 0 ∨
     s.minDist ≤ s.distance.getD tv 0 + s.distance.getD u 0 + 1)

/-- The core BFS invariant over the dense adjacency table g with colour-1
seed vertices sa and colour-2 seed vertices sb. -/
structure InvCore (g : List (List Nat)) (sa sb : List Nat) (s : BfsState) : Prop where
  hcl : s.color.length = g.length
  hdl : s.distance.length = g.length
  hcr : ∀ v, s.color.getD v 0 ≤ 2
  hq : ∀ v ∈ s.queue, v < g.length ∧ s.color.getD v 0 ≠ 0
  hsound1 : ∀ v, s.color.getD v 0 = 1 → ∃ u ∈ sa, PathLen g u v (s.distance.getD v 0)
  hsound2 : ∀ v, s.color.getD v 0 = 2 → ∃ u ∈ sb, PathLen g u v (s.distance.getD v 0)
  hdb : ∀ v, s.color.getD v 0 ≠ 0 → s.distance.getD v 0 + 1 ≤ nonzeroCount s.color
  hmin : (s.minDist = UMAX ∧ s.minAnc = 0) ∨
         (s.minDist < UMAX ∧ s.minAnc < g.length ∧
          ∃ p q, (∃ u ∈ sa, PathLen g u s.minAnc p) ∧ (∃ u ∈ sb, PathLen g u s.minAnc q) ∧
            p + q ≤ s.minDist)

/-- Every coloured vertex is either still pending in the queue or all its
outgoing edges have been scanned and satisfy the edge exit condition. -/
def procOK (g : List (List Nat)) (s : BfsState) : Prop :=
  ∀ u, u < g.length → s.color.getD u 0 ≠ 0 →
    u ∈ s.queue ∨ ∀ tv ∈ g.getD u [], edgeOK s u tv

/-- The full BFS loop invariant. -/
def Inv (g : List (List Nat)) (sa sb : List Nat) (s : BfsState) : Prop :=
  InvCore g sa sb s ∧ procOK g s

/-- The sum of distances from the word at position i to every other word
of the group, as accumulated by Outcast::outcast. -/
def sumDist {α : Type} [Inhabited α] (dist : α → α → Nat) (xs : List α) (i : Nat) : Nat :=
  ∑ j ∈ Finset.range xs.length, if j = i then 0 else dist (xs.getD i default) (xs.getD j default)

/-- A concrete digraph with a directed cycle 0 1 2 and a tail 4 3 0: the
edges are (0,1), (1,2), (2,0), (3,0), (4,3), inserted in that order, so
dense indices coincide with external ids. -/
def gCycle : Digraph :=
  (((((Digraph.empty.add_edge 0 1).add_edge 1 2).add_edge 2 0).add_edge 3 0).add_edge 4 3)

/-- A concrete digraph of two disjoint edges (1,3) and (2,4): nothing is
reachable both from 1 and from 2. -/
def gDisj : Digraph := ((Digraph.empty.add_edge 1 3).add_edge 2 4)

/-- A concrete one-edge digraph with the single edge (1,0). -/
def gEdge : Digraph := Digraph.empty.add_edge 1 0

end Wordnet

namespace Wordnet

theorem lookup_mem {l : List (Nat × Nat)} {a b : Nat} (h : l.lookup a = some b) :
    (a, b) ∈ l := by
  induction l with
  | nil => simp [List.lookup] at h
  | cons p rest ih =>
    obtain ⟨k, v⟩ := p
    rw [List.lookup_cons] at h
    cases hk : (a == k) with
    | true =>
      simp [hk] at h
      exact (beq_iff_eq.mp hk) ▸ h ▸ List.mem_cons_self _ _
    | false =>
      simp [hk] at h
      exact List.mem_cons_of_mem _ (ih h)

theorem lookup_append_left {l1 l2 : List (Nat × Nat)} {a b : Nat}
    (h : l1.lookup a = some b) : (l1 ++ l2).lookup a = some b := by
  induction l1 with
  | nil => simp [List.lookup] at h
  | cons p rest ih =>
    obtain ⟨k, v⟩ := p
    rw [List.lookup_cons] at h
    rw [List.cons_append, List.lookup_cons]
    cases hk : (a == k) with
    | true => simp [hk] at h ⊢; exact h
    | false => simp [hk] at h ⊢; exact ih h

theorem lookup_append_right {l1 l2 : List (Nat × Nat)} {a : Nat}
    (h : l1.lookup a = none) : (l1 ++ l2).lookup a = l2.lookup a := by
  induction l1 with
  | nil => simp
  | cons p rest ih =>
    obtain ⟨k, v⟩ := p
    rw [List.lookup_cons] at h
    rw [List.cons_append, List.lookup_cons]
    cases hk : (a == k) with
    | true => rw [hk] at h; simp at h
    | false => rw [hk] at h; exact ih h

theorem lookup_snoc_self {l : List (Nat × Nat)} {a r : Nat} (h : l.lookup a = none) :
    (l ++ [(a, r)]).lookup a = some r := by
  rw [lookup_append_right h, List.lookup_cons]
  simp

theorem getD_set_self {α : Type} {l : List α} {i : Nat} {a d : α} (h : i < l.length) :
    (l.set i a).getD i d = a := by
  simp [List.getD_eq_getElem?_getD, List.getElem?_set_self h]

theorem getD_set_ne {α : Type} {l : List α} {i j : Nat} {a d : α} (h : i ≠ j) :
    (l.set i a).getD j d = l.getD j d := by
  simp [List.getD_eq_getElem?_getD, List.getElem?_set_ne h]

theorem getD_append_left {α : Type} {l1 l2 : List α} {i : Nat} {d : α} (h : i < l1.length) :
    (l1 ++ l2).getD i d = l1.getD i d := by
  simp [List.getD_eq_getElem?_getD, List.getElem?_append, h]

theorem getD_append_right {α : Type} {l1 l2 : List α} {i : Nat} {d : α} (h : l1.length ≤ i) :
    (l1 ++ l2).getD i d = l2.getD (i - l1.length) d := by
  simp [List.getD_eq_getElem?_getD, List.getElem?_append_right h]

theorem getD_oob {α : Type} {l : List α} {i : Nat} {d : α} (h : l.length ≤ i) :
    l.getD i d = d := by
  simp [List.getD_eq_getElem?_getD, List.getElem?_eq_none h]

theorem getD_replicate_zero {n i : Nat} : (List.replicate n (0 : Nat)).getD i 0 = 0 := by
  rcases Nat.lt_or_ge i n with h | h
  · simp [List.getD_eq_getElem?_getD, List.getElem?_replicate, h]
  · exact getD_oob (by simpa using h)

theorem getD_mem {α : Type} {l : List α} {i : Nat} {d : α} (h : i < l.length) :
    l.getD i d ∈ l := by
  rw [List.getD_eq_getElem?_getD, List.getElem?_eq_getElem h]
  exact List.getElem_mem h

theorem lt_length_of_getD_ne {c : List Nat} {v : Nat} (h : c.getD v 0 ≠ 0) :
    v < c.length := by
  by_contra hge
  exact h (getD_oob (Nat.le_of_not_lt hge))

theorem nonzeroCount_le (c : List Nat) : nonzeroCount c ≤ c.length :=
  List.countP_le_length _

theorem nonzeroCount_pos {c : List Nat} {v : Nat} (h : c.getD v 0 ≠ 0) :
    1 ≤ nonzeroCount c := by
  have hv := lt_length_of_getD_ne h
  have hmem : c.getD v 0 ∈ c := getD_mem hv
  have : 0 < nonzeroCount c := by
    rw [nonzeroCount, List.countP_pos_iff]
    exact ⟨c.getD v 0, hmem, by simpa using h⟩
  omega

theorem nonzeroCount_set {c : List Nat} {i x : Nat} (h : i < c.length)
    (h0 : c.getD i 0 = 0) (hx : x ≠ 0) :
    nonzeroCount (c.set i x) = nonzeroCount c + 1 := by
  induction c generalizing i with
  | nil => simp at h
  | cons y ys ih =>
    cases i with
    | zero =>
      have hy : y = 0 := by simpa [List.getD_eq_getElem?_getD] using h0
      subst hy
      simp [nonzeroCount, List.countP_cons, hx]
    | succ j =>
      have hj : j < ys.length := by simpa using h
      have h0j : ys.getD j 0 = 0 := by simpa [List.getD_eq_getElem?_getD] using h0
      have := ih hj h0j
      simp only [List.set_cons_succ, nonzeroCount, List.countP_cons] at this ⊢
      omega

theorem pathLen_zero {g : List (List Nat)} {u v : Nat} (h : PathLen g u v 0) : u = v := by
  cases h
  rfl

theorem pathLen_closed {g : List (List Nat)} {P : Nat → Prop}
    (hP : ∀ x, P x → ∀ t ∈ g.getD x [], P t) {u v k : Nat}
    (h : PathLen g u v k) (hu : P u) : P v := by
  induction h with
  | refl => exact hu
  | step hp he ih => exact hP _ ih _ he

end Wordnet

namespace Wordnet

theorem WF_lookup_facts {d : Digraph} (h : WF d) {a v : Nat}
    (hl : d.idVertMap.lookup a = some v) :
    v < d.vertIdMap.length ∧ d.vertIdMap.getD v 0 = a :=
  h.2.2.1 _ (lookup_mem hl)

theorem WF_lookup_inj {d : Digraph} (h : WF d) {a b v : Nat}
    (h1 : d.idVertMap.lookup a = some v) (h2 : d.idVertMap.lookup b = some v) : a = b := by
  have e1 := (WF_lookup_facts h h1).2
  have e2 := (WF_lookup_facts h h2).2
  rw [← e1, e2]

theorem WF_empty : WF Digraph.empty := by
  refine ⟨rfl, rfl, ?_, ?_, ?_⟩ <;> simp [Digraph.empty]

theorem goav_found {d : Digraph} {v vert : Nat} (h : d.idVertMap.lookup v = some vert) :
    d.get_or_add_vert v = (d, vert) := by
  simp [Digraph.get_or_add_vert, h]

theorem goav_fresh {d : Digraph} {v : Nat} (h : d.idVertMap.lookup v = none) :
    d.get_or_add_vert v =
      (⟨d.graph ++ [[]], d.idVertMap ++ [(v, d.vertIdMap.length % U32)],
        d.vertIdMap ++ [v]⟩, d.vertIdMap.length % U32) := by
  simp [Digraph.get_or_add_vert, h]

theorem goav_spec {d : Digraph} (hwf : WF d) (hlen : d.vertIdMap.length < U32) (v : Nat) :
    WF (d.get_or_add_vert v).1 ∧
    d.vertIdMap.length ≤ (d.get_or_add_vert v).1.vertIdMap.length ∧
    (d.get_or_add_vert v).1.vertIdMap.length ≤ d.vertIdMap.length + 1 ∧
    (d.get_or_add_vert v).1.idVertMap.lookup v = some (d.get_or_add_vert v).2 ∧
    (d.get_or_add_vert v).2 < (d.get_or_add_vert v).1.vertIdMap.length ∧
    (d.get_or_add_vert v).1.vertIdMap.getD (d.get_or_add_vert v).2 0 = v ∧
    (∀ a r, d.idVertMap.lookup a = some r → (d.get_or_add_vert v).1.idVertMap.lookup a = some r) ∧
    (∀ i, i < d.vertIdMap.length → (d.get_or_add_vert v).1.vertIdMap.getD i 0 = d.vertIdMap.getD i 0) ∧
    (∀ i, i < d.graph.length → (d.get_or_add_vert v).1.graph.getD i [] = d.graph.getD i []) ∧
    d.graph.length ≤ (d.get_or_add_vert v).1.graph.length := by
  cases hl : d.idVertMap.lookup v with
  | some vert =>
    rw [goav_found hl]
    obtain ⟨hvl, hvg⟩ := WF_lookup_facts hwf hl
    exact ⟨hwf, le_refl _, Nat.le_succ _, hl, hvl, hvg,
      fun a r h => h, fun i _ => rfl, fun i _ => rfl, le_refl _⟩
  | none =>
    rw [goav_fresh hl]
    have hmod : d.vertIdMap.length % U32 = d.vertIdMap.length := Nat.mod_eq_of_lt hlen
    obtain ⟨hg, hm, hent, hinv, hedge⟩ := hwf
    rw [hmod]
    refine ⟨⟨?_, ?_, ?_, ?_, ?_⟩, ?_, ?_, ?_, ?_, ?_, ?_, ?_, ?_, ?_⟩
    · simp [hg]
    · simp [hm]
    · intro p hp
      rcases List.mem_append.mp hp with hold | hnew
      · obtain ⟨h1, h2⟩ := hent p hold
        constructor
        · simp; omega
        · rw [getD_append_left h1]; exact h2
      · have : p = (v, d.vertIdMap.length) := by simpa using hnew
        subst this
        constructor
        · simp
        · rw [getD_append_right (le_refl _)]
          simp
    · intro i hi
      rw [List.length_append, List.length_singleton] at hi
      rcases Nat.lt_or_ge i d.vertIdMap.length with hlt | hge
      · rw [getD_append_left hlt]
        exact lookup_append_left (hinv i hlt)
      · have hieq : i = d.vertIdMap.length := by omega
        subst hieq
        rw [getD_append_right (le_refl _)]
        simp only [Nat.sub_self]
        have hv : ([v] : List Nat).getD 0 0 = v := rfl
        rw [hv, lookup_snoc_self hl]
    · intro l hl2
      rcases List.mem_append.mp hl2 with hold | hnew
      · intro t ht
        have := hedge l hold t ht
        simp only [List.length_append, List.length_singleton]
        omega
      · have : l = [] := by simpa using hnew
        subst this
        intro t ht
        simp at ht
    · simp
    · simp
    · exact lookup_snoc_self hl
    · simp
    · rw [getD_append_right (le_refl _)]; simp
    · exact fun a r h => lookup_append_left h
    · intro i hi; exact getD_append_left hi
    · intro i hi; exact getD_append_left hi
    · simp

theorem add_edge_parts (d : Digraph) (v w : Nat) :
    d.add_edge v w =
      ⟨((d.get_or_add_vert v).1.get_or_add_vert w).1.graph.set (d.get_or_add_vert v).2
         (((d.get_or_add_vert v).1.get_or_add_vert w).1.graph.getD (d.get_or_add_vert v).2 []
           ++ [((d.get_or_add_vert v).1.get_or_add_vert w).2]),
       ((d.get_or_add_vert v).1.get_or_add_vert w).1.idVertMap,
       ((d.get_or_add_vert v).1.get_or_add_vert w).1.vertIdMap⟩ := rfl

theorem add_edge_spec {d : Digraph} (hwf : WF d) (hlen : d.vertIdMap.length + 2 ≤ U32)
    (v w : Nat) :
    WF (d.add_edge v w) ∧
    d.vertIdMap.length ≤ (d.add_edge v w).vertIdMap.length ∧
    (d.add_edge v w).vertIdMap.length ≤ d.vertIdMap.length + 2 ∧
    (∀ a r, d.idVertMap.lookup a = some r → (d.add_edge v w).idVertMap.lookup a = some r) ∧
    ((d.add_edge v w).idVertMap.lookup v).isSome ∧
    ((d.add_edge v w).idVertMap.lookup w).isSome := by
  have hlen1 : d.vertIdMap.length < U32 := by omega
  obtain ⟨hwf1, hle1, hle1b, hlook1, hvert1, hgetd1, hpres1, hvpres1, hgpres1, hggrow1⟩ :=
    goav_spec hwf hlen1 v
  have hlen2 : (d.get_or_add_vert v).1.vertIdMap.length < U32 := by omega
  obtain ⟨hwf2, hle2, hle2b, hlook2, hvert2, hgetd2, hpres2, hvpres2, hgpres2, hggrow2⟩ :=
    goav_spec hwf1 hlen2 w
  rw [add_edge_parts]
  obtain ⟨hg2, hm2, hent2, hinv2, hedge2⟩ := hwf2
  have hia : (d.get_or_add_vert v).2 < ((d.get_or_add_vert v).1.get_or_add_vert w).1.graph.length := by
    rw [hg2]; omega
  refine ⟨⟨?_, ?_, ?_, ?_, ?_⟩, ?_, ?_, ?_, ?_, ?_⟩
  · simp [hg2]
  · simp [hm2]
  · exact hent2
  · exact hinv2
  · intro l hmem t ht
    simp only [List.length_set]
    rcases List.mem_or_eq_of_mem_set hmem with hold | hnew
    · exact hedge2 l hold t ht
    · subst hnew
      rcases List.mem_append.mp ht with hin | hsing
      · exact hedge2 _ (getD_mem hia) t hin
      · have : t = ((d.get_or_add_vert v).1.get_or_add_vert w).2 := by simpa using hsing
        subst this
        rw [hg2]; omega
  · simp only []; omega
  · simp only []; omega
  · intro a r h
    exact hpres2 _ _ (hpres1 _ _ h)
  · rw [hpres2 _ _ hlook1]; rfl
  · rw [hlook2]; rfl

end Wordnet

namespace Wordnet

theorem add_edge_get_neighbours {d : Digraph} (hwf : WF d)
    (hlen : d.vertIdMap.length + 2 ≤ U32) (a b : Nat) :
    (d.add_edge a b).get_neighbours a = d.get_neighbours a ++ [b] := by
  have hlen1 : d.vertIdMap.length < U32 := by omega
  obtain ⟨hwf1, hle1, hle1b, hlook1, hvert1, hgetd1, hpres1, hvpres1, hgpres1, hggrow1⟩ :=
    goav_spec hwf hlen1 a
  have hlen2 : (d.get_or_add_vert a).1.vertIdMap.length < U32 := by omega
  obtain ⟨hwf2, hle2, hle2b, hlook2, hvert2, hgetd2, hpres2, hvpres2, hgpres2, hggrow2⟩ :=
    goav_spec hwf1 hlen2 b
  have hla : ((d.get_or_add_vert a).1.get_or_add_vert b).1.idVertMap.lookup a
      = some (d.get_or_add_vert a).2 := hpres2 _ _ hlook1
  have hg2 := hwf2.1
  have hg1 := hwf1.1
  have hgd : d.graph.length = d.vertIdMap.length := hwf.1
  have hia : (d.get_or_add_vert a).2
      < ((d.get_or_add_vert a).1.get_or_add_vert b).1.graph.length := by
    rw [hg2]; omega
  rw [add_edge_parts]
  simp only [Digraph.get_neighbours, hla]
  rw [getD_set_self hia, List.map_append]
  have hb : ([((d.get_or_add_vert a).1.get_or_add_vert b).2].map
      (fun n => ((d.get_or_add_vert a).1.get_or_add_vert b).1.vertIdMap.getD n 0)) = [b] := by
    simp only [List.map_cons, List.map_nil, hgetd2]
  rw [hb]
  congr 1
  cases hla0 : d.idVertMap.lookup a with
  | some v0 =>
    have he : d.get_or_add_vert a = (d, v0) := goav_found hla0
    have hv0 : v0 < d.vertIdMap.length := (WF_lookup_facts hwf hla0).1
    have hgraph : ((d.get_or_add_vert a).1.get_or_add_vert b).1.graph.getD
        (d.get_or_add_vert a).2 [] = d.graph.getD v0 [] := by
      have := hgpres2 v0 (by rw [he]; show v0 < d.graph.length; omega)
      rw [he] at this ⊢
      exact this
    rw [hgraph]
    simp only [Digraph.get_neighbours, hla0]
    apply List.map_congr_left
    intro n hn
    have hnlt : n < d.graph.length := by
      rcases Nat.lt_or_ge v0 d.graph.length with hvg | hvg
      · exact hwf.2.2.2.2 _ (getD_mem hvg) _ hn
      · rw [getD_oob hvg] at hn; simp at hn
    have hnv : n < d.vertIdMap.length := by omega
    have e1 : (d.get_or_add_vert a).1.vertIdMap.getD n 0 = d.vertIdMap.getD n 0 := by
      rw [he]
    have e2 := hvpres2 n (by rw [he]; show n < d.vertIdMap.length; omega)
    rw [e2, e1]
  | none =>
    have he := goav_fresh hla0
    have hialen : (d.get_or_add_vert a).2 = d.graph.length := by
      rw [he, hwf.1]
      exact Nat.mod_eq_of_lt hlen1
    have hgraph : ((d.get_or_add_vert a).1.get_or_add_vert b).1.graph.getD
        (d.get_or_add_vert a).2 [] = [] := by
      have h1len : (d.get_or_add_vert a).1.graph.length = d.graph.length + 1 := by
        rw [he]; simp
      have := hgpres2 (d.get_or_add_vert a).2 (by rw [h1len, hialen]; omega)
      rw [this, he]
      show (d.graph ++ [[]]).getD (d.vertIdMap.length % U32) [] = []
      rw [Nat.mod_eq_of_lt hlen1, ← hgd, getD_append_right (le_refl _)]
      simp
    rw [hgraph]
    simp [Digraph.get_neighbours, hla0]


end Wordnet

namespace Wordnet

theorem applyOps_WF : ∀ (ops : List Op) (d : Digraph), WF d →
    d.vertIdMap.length + 2 * ops.length ≤ U32 →
    WF (applyOps ops d) ∧
      (applyOps ops d).vertIdMap.length ≤ d.vertIdMap.length + 2 * ops.length := by
  intro ops
  induction ops with
  | nil => intro d h _; exact ⟨h, by simp [applyOps]⟩
  | cons op rest ih =>
    intro d h hsz
    cases op with
    | addEdge v w =>
      have hlen : d.vertIdMap.length + 2 ≤ U32 := by
        simp only [List.length_cons] at hsz; omega
      obtain ⟨hwf, hge, hle, _, _, _⟩ := add_edge_spec h hlen v w
      have hrec := ih (d.add_edge v w) hwf (by simp only [List.length_cons] at hsz; omega)
      have hunfold : applyOps (Op.addEdge v w :: rest) d = applyOps rest (d.add_edge v w) := rfl
      rw [hunfold]
      refine ⟨hrec.1, ?_⟩
      have := hrec.2
      simp only [List.length_cons]
      omega
    | reserve n =>
      have hunfold : applyOps (Op.reserve n :: rest) d = applyOps rest d := rfl
      rw [hunfold]
      have hrec := ih d h (by simp only [List.length_cons] at hsz; omega)
      refine ⟨hrec.1, ?_⟩
      have := hrec.2
      simp only [List.length_cons]
      omega

/-- C6: after any sequence of add_edge and reserve operations starting from
the default-constructed digraph (of at most 2^31 operations, so that dense
unsigned indices cannot wrap), the adjacency table, the forward map and the
inverse map have equal cardinality, and the two maps are mutually inverse:
id_of of vertex_of of x is x for every registered x, and vertex_of of
id_of of i is i for every dense index i. -/
theorem claim_C6 (ops : List Op) (hsize : 2 * ops.length ≤ U32) :
    (applyOps ops Digraph.empty).graph.length = (applyOps ops Digraph.empty).vertIdMap.length ∧
    (applyOps ops Digraph.empty).idVertMap.length = (applyOps ops Digraph.empty).vertIdMap.length ∧
    (∀ x vert, (applyOps ops Digraph.empty).idVertMap.lookup x = some vert →
      (applyOps ops Digraph.empty).vertIdMap.getD vert 0 = x) ∧
    (∀ i, i < (applyOps ops Digraph.empty).vertIdMap.length →
      (applyOps ops Digraph.empty).idVertMap.lookup
        ((applyOps ops Digraph.empty).vertIdMap.getD i 0) = some i) := by
  have h0 : Digraph.empty.vertIdMap.length + 2 * ops.length ≤ U32 := by
    simpa [Digraph.empty] using hsize
  obtain ⟨hwf, _⟩ := applyOps_WF ops Digraph.empty WF_empty h0
  exact ⟨hwf.1, hwf.2.1,
    fun x vert h => (WF_lookup_facts hwf h).2,
    hwf.2.2.2.1⟩

theorem claim_C6_witness :
    2 * ([Op.addEdge 1 0, Op.reserve 7, Op.addEdge 2 1] : List Op).length ≤ U32 ∧
    ((applyOps [Op.addEdge 1 0, Op.reserve 7, Op.addEdge 2 1] Digraph.empty).graph.length =
       (applyOps [Op.addEdge 1 0, Op.reserve 7, Op.addEdge 2 1] Digraph.empty).vertIdMap.length ∧
     (applyOps [Op.addEdge 1 0, Op.reserve 7, Op.addEdge 2 1] Digraph.empty).idVertMap.length =
       (applyOps [Op.addEdge 1 0, Op.reserve 7, Op.addEdge 2 1] Digraph.empty).vertIdMap.length ∧
     (∀ x vert, (applyOps [Op.addEdge 1 0, Op.reserve 7, Op.addEdge 2 1]
         Digraph.empty).idVertMap.lookup x = some vert →
       (applyOps [Op.addEdge 1 0, Op.reserve 7, Op.addEdge 2 1]
         Digraph.empty).vertIdMap.getD vert 0 = x) ∧
     (∀ i, i < (applyOps [Op.addEdge 1 0, Op.reserve 7, Op.addEdge 2 1]
         Digraph.empty).vertIdMap.length →
       (applyOps [Op.addEdge 1 0, Op.reserve 7, Op.addEdge 2 1] Digraph.empty).idVertMap.lookup
         ((applyOps [Op.addEdge 1 0, Op.reserve 7, Op.addEdge 2 1]
           Digraph.empty).vertIdMap.getD i 0) = some i)) :=
  ⟨by decide, claim_C6 [Op.addEdge 1 0, Op.reserve 7, Op.addEdge 2 1] (by decide)⟩

/-- C5: after add_edge of a and b on a well-formed digraph, the neighbour
list of a is the old neighbour list with the external id b appended at the
end (so b occurs exactly once more than before, insertion order preserved,
self-loops and duplicates kept), and both endpoints are registered. -/
theorem claim_C5 {d : Digraph} (hwf : WF d) (hsize : d.vertIdMap.length + 2 ≤ U32)
    (a b : Nat) :
    (d.add_edge a b).get_neighbours a = d.get_neighbours a ++ [b] ∧
    ((d.add_edge a b).get_neighbours a).count b = (d.get_neighbours a).count b + 1 ∧
    ((d.add_edge a b).idVertMap.lookup a).isSome ∧
    ((d.add_edge a b).idVertMap.lookup b).isSome := by
  have h1 := add_edge_get_neighbours hwf hsize a b
  obtain ⟨_, _, _, _, hva, hvb⟩ := add_edge_spec hwf hsize a b
  refine ⟨h1, ?_, hva, hvb⟩
  rw [h1, List.count_append]
  simp

theorem claim_C5_witness :
    WF gEdge ∧ gEdge.vertIdMap.length + 2 ≤ U32 ∧
    ((gEdge.add_edge 1 5).get_neighbours 1 = gEdge.get_neighbours 1 ++ [5] ∧
     ((gEdge.add_edge 1 5).get_neighbours 1).count 5 = (gEdge.get_neighbours 1).count 5 + 1 ∧
     ((gEdge.add_edge 1 5).idVertMap.lookup 1).isSome ∧
     ((gEdge.add_edge 1 5).idVertMap.lookup 5).isSome) :=
  ⟨by decide, by decide, claim_C5 (by decide) (by decide) 1 5⟩

/-- C7: get_neighbours of an id that was never registered returns the
empty sequence rather than failing; together with the totality of the
embedded add_edge and get_neighbours (they are total Lean functions over
natural-number ids), this is the whole error contract of the Digraph
class. -/
theorem claim_C7 (d : Digraph) (v : Nat) (h : d.idVertMap.lookup v = none) :
    d.get_neighbours v = [] := by
  simp [Digraph.get_neighbours, h]

theorem claim_C7_witness :
    gEdge.idVertMap.lookup 99 = none ∧ gEdge.get_neighbours 99 = [] :=
  ⟨by decide, claim_C7 gEdge 99 (by decide)⟩

/-- C9: reset_graph_size (the reserve call) leaves every observable of the
digraph unchanged: the vertex count, every neighbour query, every
ancestor_length query, and all three containers; and the ancestor_length
query itself is a pure function of the digraph (the embedding gives it no
way to mutate the graph, matching the const qualifier in the C++). -/
theorem claim_C9 (d : Digraph) (sz v : Nat) (A B : List Nat) :
    (d.reset_graph_size sz).size = d.size ∧
    (d.reset_graph_size sz).get_neighbours v = d.get_neighbours v ∧
    ShortestCommonAncestor.ancestor_length (d.reset_graph_size sz) A B =
      ShortestCommonAncestor.ancestor_length d A B ∧
    (d.reset_graph_size sz).graph = d.graph ∧
    (d.reset_graph_size sz).idVertMap = d.idVertMap ∧
    (d.reset_graph_size sz).vertIdMap = d.vertIdMap :=
  ⟨rfl, rfl, rfl, rfl, rfl, rfl⟩

end Wordnet

namespace Wordnet

theorem gCycle_path_4_to_1 : PathLen gCycle.graph 4 1 3 := by
  have h1 : (3 : Nat) ∈ gCycle.graph.getD 4 [] := by decide
  have h2 : (0 : Nat) ∈ gCycle.graph.getD 3 [] := by decide
  have h3 : (1 : Nat) ∈ gCycle.graph.getD 0 [] := by decide
  exact PathLen.step (PathLen.step (PathLen.step (PathLen.refl 4) h1) h2) h3

/-- C1 fails on the code: on the digraph gCycle (edges (0,1), (1,2),
(2,0), (3,0), (4,3)), the query with A equal to the set holding 1 and B
equal to the set holding 4 returns the pair (0, 4), although vertex 1 is
reachable from A at distance 0 and from B at distance 3 (along 4, 3, 0,
1), so the true minimum of the distance sums over commonly reachable
vertices is 3, not 4: the two-colour BFS colours vertex 0 from the A side
first and never explores the cheaper meeting at vertex 1. -/
theorem claim_C1_failing :
    ShortestCommonAncestor.ancestor_length gCycle [1] [4] = some (0, 4) ∧
    gCycle.idVertMap.lookup 1 = some 1 ∧
    gCycle.idVertMap.lookup 4 = some 4 ∧
    PathLen gCycle.graph 1 1 0 ∧
    PathLen gCycle.graph 4 1 3 ∧
    (0 + 3 : Nat) < 4 :=
  ⟨by decide, by decide, by decide, PathLen.refl 1, gCycle_path_4_to_1, by decide⟩

/-- C4 fails on the code: on the digraph gCycle the computed length from 1
to 4 is 4 but the computed length from 4 to 1 is 3, so swapping the two
source sets changes the result. -/
theorem claim_C4_counterexample :
    ShortestCommonAncestor.length gCycle 1 4 = some 4 ∧
    ShortestCommonAncestor.length gCycle 4 1 = some 3 ∧
    (4 : Nat) ≠ 3 :=
  ⟨by decide, by decide, by decide⟩

theorem gDisj_reach_a {y p : Nat} (h : PathLen gDisj.graph 0 y p) : y ∈ ([0, 1] : List Nat) := by
  refine pathLen_closed ?_ h (by decide)
  intro x hx t ht
  have hx2 : x = 0 ∨ x = 1 := by simpa using hx
  rcases hx2 with h0 | h1
  · subst h0
    have hadj : gDisj.graph.getD 0 [] = [1] := by decide
    rw [hadj] at ht
    have : t = 1 := by simpa using ht
    subst this
    decide
  · subst h1
    have hadj : gDisj.graph.getD 1 [] = [] := by decide
    rw [hadj] at ht
    simp at ht

theorem gDisj_reach_b {y p : Nat} (h : PathLen gDisj.graph 2 y p) : y ∈ ([2, 3] : List Nat) := by
  refine pathLen_closed ?_ h (by decide)
  intro x hx t ht
  have hx2 : x = 2 ∨ x = 3 := by simpa using hx
  rcases hx2 with h0 | h1
  · subst h0
    have hadj : gDisj.graph.getD 2 [] = [3] := by decide
    rw [hadj] at ht
    have : t = 3 := by simpa using ht
    subst this
    decide
  · subst h1
    have hadj : gDisj.graph.getD 3 [] = [] := by decide
    rw [hadj] at ht
    simp at ht

theorem gDisj_noCommon : ¬ commonReach gDisj [1] [2] := by
  rintro ⟨y, va, vb, p, q, hva, hvb, hp, hq⟩
  have hva0 : va = 0 := by
    have he : vertsOf gDisj [1] = [0] := by decide
    rw [he] at hva
    simpa using hva
  have hvb2 : vb = 2 := by
    have he : vertsOf gDisj [2] = [2] := by decide
    rw [he] at hvb
    simpa using hvb
  subst hva0
  subst hvb2
  have h1 := gDisj_reach_a hp
  have h2 := gDisj_reach_b hq
  simp at h1 h2
  omega

/-- C2 fails on the code as stated: on the digraph gDisj (edges (1,3) and
(2,4)), no vertex is reachable both from 1 and from 2, yet the query
returns the pair (1, 4294967295): the distance component is the unsigned
maximum (so it is never 0), but the ancestor component is the external id
of dense vertex 0 (here the queried vertex 1 itself), an arbitrary vertex;
in particular the ancestor accessor, which drops the distance, reports
vertex 1 as the shortest common ancestor with no failure signal at all. -/
theorem claim_C2_counterexample :
    ¬ commonReach gDisj [1] [2] ∧
    ShortestCommonAncestor.ancestor_length gDisj [1] [2] = some (1, UMAX) ∧
    ShortestCommonAncestor.ancestor gDisj 1 2 = some 1 :=
  ⟨gDisj_noCommon, by decide, by decide⟩

/-- C10 fails on the code as stated: on the one-edge digraph gEdge with
edge (1,0), the query with A holding 1 and B listing 1 and then the
unregistered id 999 returns the pair (1, 0) normally: the early return for
overlapping sets fires on the first element of B before the lookup of 999
would throw. -/
theorem claim_C10_counterexample :
    gEdge.idVertMap.lookup 999 = none ∧
    ShortestCommonAncestor.ancestor_length gEdge [1] [1, 999] = some (1, 0) :=
  ⟨by decide, by decide⟩

end Wordnet

namespace Wordnet

open ShortestCommonAncestor

theorem mem_vertsOf {d : Digraph} {ids : List Nat} {v : Nat} :
    v ∈ vertsOf d ids ↔ ∃ id ∈ ids, d.idVertMap.lookup id = some v := by
  simp [vertsOf, List.mem_filterMap]

theorem vertsOf_lt {d : Digraph} (hwf : WF d) {ids : List Nat} {v : Nat}
    (h : v ∈ vertsOf d ids) : v < d.graph.length := by
  obtain ⟨id, _, hl⟩ := mem_vertsOf.mp h
  have := (WF_lookup_facts hwf hl).1
  rw [hwf.1]
  omega

theorem first_split {A : List Nat} : ∀ (B : List Nat), (∃ x, x ∈ B ∧ x ∈ A) →
    ∃ pre b post, B = pre ++ b :: post ∧ b ∈ A ∧ ∀ x ∈ pre, x ∉ A := by
  intro B
  induction B with
  | nil => rintro ⟨x, hx, _⟩; simp at hx
  | cons y ys ih =>
    rintro ⟨x, hx, hxA⟩
    by_cases hy : y ∈ A
    · exact ⟨[], y, ys, rfl, hy, by simp⟩
    · have hxy : x ∈ ys := by
        rcases List.mem_cons.mp hx with h | h
        · subst h; exact absurd hxA hy
        · exact h
      obtain ⟨pre, b, post, he, hbA, hpre⟩ := ih ⟨x, hxy, hxA⟩
      refine ⟨y :: pre, b, post, by rw [he]; rfl, hbA, ?_⟩
      intro z hz
      rcases List.mem_cons.mp hz with h | h
      · subst h; exact hy
      · exact hpre z h

theorem seedA_spec {d : Digraph} (hwf : WF d) :
    ∀ (ids : List Nat) (s : BfsState), (∀ id ∈ ids, (d.idVertMap.lookup id).isSome) →
      s.color.length = d.graph.length →
      ∃ s2, seedA d ids s = some s2 ∧
        s2.distance = s.distance ∧ s2.minDist = s.minDist ∧ s2.minAnc = s.minAnc ∧
        s2.queue = s.queue ++ vertsOf d ids ∧
        s2.color.length = s.color.length ∧
        (∀ v, s2.color.getD v 0 = if v ∈ vertsOf d ids then 1 else s.color.getD v 0) := by
  intro ids
  induction ids with
  | nil =>
    intro s _ hcl
    refine ⟨s, rfl, rfl, rfl, rfl, by simp [vertsOf], rfl, ?_⟩
    intro v
    simp [vertsOf]
  | cons id rest ih =>
    intro s hall hcl
    obtain ⟨vert, hvert⟩ := Option.isSome_iff_exists.mp (hall id (by simp))
    have hunfold : seedA d (id :: rest) s =
        seedA d rest ⟨s.distance, s.color.set vert 1, s.queue ++ [vert], s.minDist, s.minAnc⟩ := by
      simp [seedA, hvert]
    have hlt : vert < s.color.length := by
      rw [hcl, hwf.1]
      exact (WF_lookup_facts hwf hvert).1
    obtain ⟨s2, h2, hd, hm, ha, hq, hclen, hcol⟩ :=
      ih ⟨s.distance, s.color.set vert 1, s.queue ++ [vert], s.minDist, s.minAnc⟩
        (fun x hx => hall x (by simp [hx])) (by simpa using hcl)
    have hverts : vertsOf d (id :: rest) = vert :: vertsOf d rest := by
      simp [vertsOf, List.filterMap_cons, hvert]
    refine ⟨s2, by rw [hunfold]; exact h2, hd, hm, ha, ?_, by simpa using hclen, ?_⟩
    · rw [hq, hverts]
      simp
    · intro v
      rw [hcol v, hverts]
      by_cases hv : v ∈ vertsOf d rest
      · simp [hv]
      · rw [if_neg hv]
        by_cases hveq : v = vert
        · rw [hveq]
          show (s.color.set vert 1).getD vert 0 = _
          rw [getD_set_self hlt, if_pos (List.mem_cons_self _ _)]
        · show (s.color.set vert 1).getD v 0 = _
          rw [getD_set_ne (fun he => hveq he.symm),
            if_neg (by
              intro hmem
              rcases List.mem_cons.mp hmem with h | h
              exacts [hveq h, hv h])]

theorem seedB_early {d : Digraph} (hwf : WF d) :
    ∀ (pre : List Nat) (bid : Nat) (post : List Nat) (t : BfsState) (sa : List Nat),
      (∀ v, t.color.getD v 0 = 1 ↔ v ∈ sa) →
      t.color.length = d.graph.length →
      (∀ x ∈ pre, ∃ vx, d.idVertMap.lookup x = some vx ∧ vx ∉ sa) →
      (∃ vb, d.idVertMap.lookup bid = some vb ∧ vb ∈ sa) →
      seedB d (pre ++ bid :: post) t = some (Sum.inl (bid, 0)) := by
  intro pre
  induction pre with
  | nil =>
    intro bid post t sa hchar hclen hpre hb
    obtain ⟨vb, hvb, hvbin⟩ := hb
    have h1 : t.color.getD vb 0 = 1 := (hchar vb).mpr hvbin
    show seedB d (bid :: post) t = _
    simp only [seedB, hvb]
    rw [if_pos h1]
  | cons x pre1 ih =>
    intro bid post t sa hchar hclen hpre hb
    obtain ⟨vx, hvx, hvxout⟩ := hpre x (by simp)
    have hnot1 : ¬ t.color.getD vx 0 = 1 := fun hc => hvxout ((hchar vx).mp hc)
    have hltx : vx < t.color.length := by
      rw [hclen, hwf.1]
      exact (WF_lookup_facts hwf hvx).1
    have hunfold : seedB d ((x :: pre1) ++ bid :: post) t =
        seedB d (pre1 ++ bid :: post)
          ⟨t.distance, t.color.set vx 2, t.queue ++ [vx], t.minDist, t.minAnc⟩ := by
      show seedB d (x :: (pre1 ++ bid :: post)) t = _
      simp only [seedB, hvx]
      rw [if_neg hnot1]
    rw [hunfold]
    refine ih bid post _ sa ?_ (by simpa using hclen) (fun z hz => hpre z (by simp [hz])) hb
    intro v
    by_cases hveq : v = vx
    · subst hveq
      rw [getD_set_self hltx]
      constructor
      · intro h; omega
      · intro h; exact absurd h hvxout
    · rw [getD_set_ne (fun he => hveq he.symm)]
      exact hchar v

/-- C3: on a well-formed digraph, a query whose two non-empty subsets of
registered ids overlap short-circuits during seeding: it returns distance
0 with an ancestor id that belongs to both subsets (the first element of B
that also lies in A), without entering the BFS loop; in particular
ancestor of v and v is v with length 0 for every registered v. -/
theorem claim_C3 {d : Digraph} (hwf : WF d) (A B : List Nat)
    (hA : ∀ a ∈ A, (d.idVertMap.lookup a).isSome)
    (hB : ∀ b ∈ B, (d.idVertMap.lookup b).isSome)
    (hAB : ∃ x, x ∈ A ∧ x ∈ B) :
    ∃ x, ancestor_length d A B = some (x, 0) ∧ x ∈ A ∧ x ∈ B := by
  obtain ⟨s1, hs1, _, _, _, _, hclen1, hcol1⟩ :=
    seedA_spec hwf A (initState d) hA (by simp [initState])
  have hclen1b : s1.color.length = d.graph.length := by
    rw [hclen1]; simp [initState]
  have hchar : ∀ v, s1.color.getD v 0 = 1 ↔ v ∈ vertsOf d A := by
    intro v
    rw [hcol1 v]
    by_cases hv : v ∈ vertsOf d A
    · simp [hv]
    · simp only [hv, if_false]
      rw [show (initState d).color = List.replicate d.graph.length 0 from rfl,
        getD_replicate_zero]
      simp [hv]
  obtain ⟨x, hxA, hxB⟩ := hAB
  obtain ⟨pre, b0, post, hsplit, hb0A, hpre⟩ := first_split B ⟨x, hxB, hxA⟩
  have hpre2 : ∀ z ∈ pre, ∃ vz, d.idVertMap.lookup z = some vz ∧ vz ∉ vertsOf d A := by
    intro z hz
    have hzB : z ∈ B := by rw [hsplit]; simp [hz]
    obtain ⟨vz, hvz⟩ := Option.isSome_iff_exists.mp (hB z hzB)
    refine ⟨vz, hvz, ?_⟩
    intro hmem
    obtain ⟨a, haA, hla⟩ := mem_vertsOf.mp hmem
    exact hpre z hz (WF_lookup_inj hwf hla hvz ▸ haA)
  have hb0 : ∃ vb, d.idVertMap.lookup b0 = some vb ∧ vb ∈ vertsOf d A := by
    have hb0B : b0 ∈ B := by rw [hsplit]; simp
    obtain ⟨vb, hvb⟩ := Option.isSome_iff_exists.mp (hB b0 hb0B)
    exact ⟨vb, hvb, mem_vertsOf.mpr ⟨b0, hb0A, hvb⟩⟩
  have hearly := seedB_early hwf pre b0 post s1 (vertsOf d A) hchar hclen1b hpre2 hb0
  refine ⟨b0, ?_, hb0A, by rw [hsplit]; simp⟩
  rw [hsplit]
  simp only [ancestor_length, hs1, hearly]

end Wordnet

namespace Wordnet

open ShortestCommonAncestor

theorem seedA_none_iff {d : Digraph} : ∀ (ids : List Nat) (s : BfsState),
    seedA d ids s = none ↔ ∃ id ∈ ids, d.idVertMap.lookup id = none := by
  intro ids
  induction ids with
  | nil => intro s; simp [seedA]
  | cons id rest ih =>
    intro s
    cases hl : d.idVertMap.lookup id with
    | none =>
      constructor
      · intro _; exact ⟨id, by simp, hl⟩
      · intro _; simp [seedA, hl]
    | some vert =>
      have hunfold : seedA d (id :: rest) s =
          seedA d rest ⟨s.distance, s.color.set vert 1, s.queue ++ [vert],
            s.minDist, s.minAnc⟩ := by
        simp [seedA, hl]
      rw [hunfold, ih]
      constructor
      · rintro ⟨x, hx, hxl⟩
        exact ⟨x, by simp [hx], hxl⟩
      · rintro ⟨x, hx, hxl⟩
        rcases List.mem_cons.mp hx with h | h
        · subst h; rw [hl] at hxl; cases hxl
        · exact ⟨x, h, hxl⟩

theorem seedB_none_iff {d : Digraph} (hwf : WF d) : ∀ (ids : List Nat) (t : BfsState)
    (sa : List Nat),
    (∀ v, t.color.getD v 0 = 1 ↔ v ∈ sa) →
    t.color.length = d.graph.length →
    (seedB d ids t = none ↔
      ∃ pre b post, ids = pre ++ b :: post ∧ d.idVertMap.lookup b = none ∧
        ∀ x ∈ pre, ∃ vx, d.idVertMap.lookup x = some vx ∧ vx ∉ sa) := by
  intro ids
  induction ids with
  | nil =>
    intro t sa hchar hclen
    constructor
    · intro h; cases h
    · rintro ⟨pre, b, post, hsplit, _, _⟩
      exact absurd hsplit (by simp)
  | cons id rest ih =>
    intro t sa hchar hclen
    cases hl : d.idVertMap.lookup id with
    | none =>
      constructor
      · intro _
        exact ⟨[], id, rest, rfl, hl, by simp⟩
      · intro _
        simp [seedB, hl]
    | some vert =>
      by_cases h1 : t.color.getD vert 0 = 1
      · have hval : seedB d (id :: rest) t = some (Sum.inl (id, 0)) := by
          simp only [seedB, hl]
          rw [if_pos h1]
        rw [hval]
        constructor
        · intro h; cases h
        · rintro ⟨pre, b, post, hsplit, hbnone, hpre⟩
          cases pre with
          | nil =>
            have : id = b := by simpa using congrArg (fun l => l.headD 0) hsplit
            subst this
            rw [hl] at hbnone
            cases hbnone
          | cons z pre1 =>
            have hz : z = id := by simpa using (congrArg (fun l => l.headD 0) hsplit).symm
            subst hz
            obtain ⟨vx, hvx, hvxout⟩ := hpre z (by simp)
            rw [hl] at hvx
            have : vert = vx := by cases hvx; rfl
            subst this
            exact (hvxout ((hchar vert).mp h1)).elim
      · have hlt : vert < t.color.length := by
          rw [hclen, hwf.1]
          exact (WF_lookup_facts hwf hl).1
        have hunfold : seedB d (id :: rest) t =
            seedB d rest ⟨t.distance, t.color.set vert 2, t.queue ++ [vert],
              t.minDist, t.minAnc⟩ := by
          simp only [seedB, hl]
          rw [if_neg h1]
        have hchar2 : ∀ v, (t.color.set vert 2).getD v 0 = 1 ↔ v ∈ sa := by
          intro v
          by_cases hveq : v = vert
          · subst hveq
            rw [getD_set_self hlt]
            constructor
            · intro h; omega
            · intro h; exact absurd ((hchar v).mpr h) h1
          · rw [getD_set_ne (fun he => hveq he.symm)]
            exact hchar v
        rw [hunfold, ih _ sa hchar2 (by simpa using hclen)]
        constructor
        · rintro ⟨pre, b, post, hsplit, hbnone, hpre⟩
          refine ⟨id :: pre, b, post, by rw [hsplit]; rfl, hbnone, ?_⟩
          intro x hx
          rcases List.mem_cons.mp hx with h | h
          · subst h
            exact ⟨vert, hl, fun hmem => h1 ((hchar vert).mpr hmem)⟩
          · exact hpre x h
        · rintro ⟨pre, b, post, hsplit, hbnone, hpre⟩
          cases pre with
          | nil =>
            have : id = b := by simpa using congrArg (fun l => l.headD 0) hsplit
            subst this
            rw [hl] at hbnone
            cases hbnone
          | cons z pre1 =>
            have hz : z = id := by simpa using (congrArg (fun l => l.headD 0) hsplit).symm
            subst hz
            have htail : rest = pre1 ++ b :: post := by
              simpa using congrArg List.tail hsplit
            exact ⟨pre1, b, post, htail, hbnone, fun x hx => hpre x (by simp [hx])⟩

/-- C10 corrected: a query raises the lookup failure (returns none) if and
only if either some id of A is unregistered, or A is fully registered and
B has an unregistered id strictly before its first element that lies in A;
an unregistered id of B hidden behind an earlier overlap element is never
reached, because the early return fires first (see the counterexample). -/
theorem claim_C10_amended {d : Digraph} (hwf : WF d) (A B : List Nat) :
    ancestor_length d A B = none ↔
      (∃ a ∈ A, d.idVertMap.lookup a = none) ∨
      ((∀ a ∈ A, (d.idVertMap.lookup a).isSome) ∧
       ∃ pre b post, B = pre ++ b :: post ∧ d.idVertMap.lookup b = none ∧
         ∀ x ∈ pre, (d.idVertMap.lookup x).isSome ∧ x ∉ A) := by
  by_cases hA : ∀ a ∈ A, (d.idVertMap.lookup a).isSome
  · obtain ⟨s1, hs1, _, _, _, _, hclen1, hcol1⟩ :=
      seedA_spec hwf A (initState d) hA (by simp [initState])
    have hclen1b : s1.color.length = d.graph.length := by
      rw [hclen1]; simp [initState]
    have hchar : ∀ v, s1.color.getD v 0 = 1 ↔ v ∈ vertsOf d A := by
      intro v
      rw [hcol1 v]
      by_cases hv : v ∈ vertsOf d A
      · simp [hv]
      · simp only [hv, if_false]
        rw [show (initState d).color = List.replicate d.graph.length 0 from rfl,
          getD_replicate_zero]
        simp [hv]
    have hAfalse : ¬ ∃ a ∈ A, d.idVertMap.lookup a = none := by
      rintro ⟨a, ha, hnone⟩
      have := hA a ha
      rw [hnone] at this
      cases this
    have hmain : ancestor_length d A B = none ↔ seedB d B s1 = none := by
      simp only [ancestor_length, hs1]
      cases hsb : seedB d B s1 with
      | none => simp
      | some val =>
        cases val with
        | inl res => simp
        | inr s2 => simp
    rw [hmain, seedB_none_iff hwf B s1 (vertsOf d A) hchar hclen1b]
    constructor
    · rintro ⟨pre, b, post, hsplit, hbnone, hpre⟩
      refine Or.inr ⟨hA, pre, b, post, hsplit, hbnone, ?_⟩
      intro x hx
      obtain ⟨vx, hvx, hvxout⟩ := hpre x hx
      refine ⟨by rw [hvx]; rfl, ?_⟩
      intro hxA
      exact hvxout (mem_vertsOf.mpr ⟨x, hxA, hvx⟩)
    · rintro (habs | ⟨_, pre, b, post, hsplit, hbnone, hpre⟩)
      · exact absurd habs hAfalse
      · refine ⟨pre, b, post, hsplit, hbnone, ?_⟩
        intro x hx
        obtain ⟨hsome, hxA⟩ := hpre x hx
        obtain ⟨vx, hvx⟩ := Option.isSome_iff_exists.mp hsome
        refine ⟨vx, hvx, ?_⟩
        intro hmem
        obtain ⟨a, haA, hla⟩ := mem_vertsOf.mp hmem
        exact hxA (WF_lookup_inj hwf hla hvx ▸ haA)
  · push_neg at hA
    obtain ⟨a, ha, hnone0⟩ := hA
    have hnone : d.idVertMap.lookup a = none := by
      rcases hval : d.idVertMap.lookup a with _ | v
      · rfl
      · rw [hval] at hnone0; simp at hnone0
    have hsa : seedA d A (initState d) = none :=
      (seedA_none_iff A (initState d)).mpr ⟨a, ha, hnone⟩
    constructor
    · intro _
      exact Or.inl ⟨a, ha, hnone⟩
    · intro _
      simp [ancestor_length, hsa]

theorem claim_C10_witness :
    WF gEdge ∧
    (ancestor_length gEdge [999] [1] = none ↔
      (∃ a ∈ ([999] : List Nat), gEdge.idVertMap.lookup a = none) ∨
      ((∀ a ∈ ([999] : List Nat), (gEdge.idVertMap.lookup a).isSome) ∧
       ∃ pre b post, ([1] : List Nat) = pre ++ b :: post ∧
         gEdge.idVertMap.lookup b = none ∧
         ∀ x ∈ pre, (gEdge.idVertMap.lookup x).isSome ∧ x ∉ ([999] : List Nat))) :=
  ⟨by decide, claim_C10_amended (by decide) [999] [1]⟩

theorem claim_C3_witness :
    WF gEdge ∧
    (∀ a ∈ ([1] : List Nat), (gEdge.idVertMap.lookup a).isSome) ∧
    (∀ b ∈ ([1] : List Nat), (gEdge.idVertMap.lookup b).isSome) ∧
    (∃ x, x ∈ ([1] : List Nat) ∧ x ∈ ([1] : List Nat)) ∧
    (∃ x, ancestor_length gEdge [1] [1] = some (x, 0) ∧
      x ∈ ([1] : List Nat) ∧ x ∈ ([1] : List Nat)) :=
  ⟨by decide, by decide, by decide, ⟨1, by decide, by decide⟩,
    claim_C3 (by decide) [1] [1] (by decide) (by decide) ⟨1, by decide, by decide⟩⟩

end Wordnet

namespace Wordnet

open ShortestCommonAncestor

theorem adj_lt {g : List (List Nat)} (hg : ∀ l ∈ g, ∀ t ∈ l, t < g.length)
    {vert tv : Nat} (hvlt : vert < g.length) (hadj : tv ∈ g.getD vert []) :
    tv < g.length :=
  hg _ (getD_mem hvlt) tv hadj

theorem dist_succ_le {g : List (List Nat)} {sa sb : List Nat} {t : BfsState}
    (hI : InvCore g sa sb t) {v : Nat} (h : t.color.getD v 0 ≠ 0) :
    t.distance.getD v 0 + 1 ≤ g.length :=
  (hI.hdb v h).trans ((nonzeroCount_le _).trans (le_of_eq hI.hcl))

theorem edgeOK_mono {s r : BfsState} {u tv : Nat}
    (hcol : ∀ v, s.color.getD v 0 ≠ 0 → r.color.getD v 0 = s.color.getD v 0)
    (hdist : ∀ v, s.color.getD v 0 ≠ 0 → r.distance.getD v 0 = s.distance.getD v 0)
    (hmin : r.minDist ≤ s.minDist)
    (hu : s.color.getD u 0 ≠ 0)
    (h : edgeOK s u tv) : edgeOK r u tv := by
  obtain ⟨htv, hca⟩ := h
  refine ⟨by rw [hcol tv htv]; exact htv, ?_⟩
  rcases hca with he | hle
  · exact Or.inl (by rw [hcol tv htv, hcol u hu]; exact he)
  · refine Or.inr ?_
    rw [hdist tv htv, hdist u hu]
    omega

theorem InvCore_color_step {g : List (List Nat)} {sa sb : List Nat}
    (hg : ∀ l ∈ g, ∀ t ∈ l, t < g.length) (hn2 : 2 * g.length < U32)
    {t : BfsState} (hI : InvCore g sa sb t)
    {vert tv : Nat} (hvlt : vert < g.length) (hcv : t.color.getD vert 0 ≠ 0)
    (hadj : tv ∈ g.getD vert []) (h0 : t.color.getD tv 0 = 0) :
    InvCore g sa sb ⟨t.distance.set tv ((t.distance.getD vert 0 + 1) % U32),
      t.color.set tv (t.color.getD vert 0), t.queue ++ [tv], t.minDist, t.minAnc⟩ ∧
    nonzeroCount (t.color.set tv (t.color.getD vert 0)) = nonzeroCount t.color + 1 ∧
    tv < g.length ∧ tv ≠ vert := by
  have htvlt : tv < g.length := adj_lt hg hvlt hadj
  have htvc : tv < t.color.length := by rw [hI.hcl]; exact htvlt
  have htvd : tv < t.distance.length := by rw [hI.hdl]; exact htvlt
  have htvne : tv ≠ vert := fun he => hcv (he ▸ h0)
  have hdv1 : t.distance.getD vert 0 + 1 ≤ g.length := dist_succ_le hI hcv
  have hmod : (t.distance.getD vert 0 + 1) % U32 = t.distance.getD vert 0 + 1 :=
    Nat.mod_eq_of_lt (by omega)
  have hnz : nonzeroCount (t.color.set tv (t.color.getD vert 0)) = nonzeroCount t.color + 1 :=
    nonzeroCount_set htvc h0 hcv
  refine ⟨⟨?_, ?_, ?_, ?_, ?_, ?_, ?_, ?_⟩, hnz, htvlt, htvne⟩
  · show (t.color.set tv _).length = g.length
    rw [List.length_set]; exact hI.hcl
  · show (t.distance.set tv _).length = g.length
    rw [List.length_set]; exact hI.hdl
  · intro v
    by_cases hveq : v = tv
    · subst hveq
      show (t.color.set v (t.color.getD vert 0)).getD v 0 ≤ 2
      rw [getD_set_self htvc]
      exact hI.hcr vert
    · show (t.color.set tv _).getD v 0 ≤ 2
      rw [getD_set_ne (fun he => hveq he.symm)]
      exact hI.hcr v
  · intro v hv
    rcases List.mem_append.mp hv with hold | hnew
    · obtain ⟨hlt2, hc2⟩ := hI.hq v hold
      refine ⟨hlt2, ?_⟩
      show (t.color.set tv _).getD v 0 ≠ 0
      rw [getD_set_ne (fun he => hc2 (by rw [← he]; exact h0))]
      exact hc2
    · have : v = tv := by simpa using hnew
      subst this
      refine ⟨htvlt, ?_⟩
      show (t.color.set v _).getD v 0 ≠ 0
      rw [getD_set_self htvc]
      exact hcv
  · intro v hv1
    by_cases hveq : v = tv
    · subst hveq
      rw [show (⟨t.distance.set v ((t.distance.getD vert 0 + 1) % U32),
          t.color.set v (t.color.getD vert 0), t.queue ++ [v], t.minDist,
          t.minAnc⟩ : BfsState).color.getD v 0
          = t.color.getD vert 0 from getD_set_self htvc] at hv1
      obtain ⟨u, hu, hpath⟩ := hI.hsound1 vert hv1
      refine ⟨u, hu, ?_⟩
      show PathLen g u v ((t.distance.set v _).getD v 0)
      rw [getD_set_self htvd, hmod]
      exact PathLen.step hpath hadj
    · rw [show (⟨t.distance.set tv ((t.distance.getD vert 0 + 1) % U32),
          t.color.set tv (t.color.getD vert 0), t.queue ++ [tv], t.minDist,
          t.minAnc⟩ : BfsState).color.getD v 0
          = t.color.getD v 0 from getD_set_ne (fun he => hveq he.symm)] at hv1
      obtain ⟨u, hu, hpath⟩ := hI.hsound1 v hv1
      refine ⟨u, hu, ?_⟩
      show PathLen g u v ((t.distance.set tv _).getD v 0)
      rw [getD_set_ne (fun he => hveq he.symm)]
      exact hpath
  · intro v hv2
    by_cases hveq : v = tv
    · subst hveq
      rw [show (⟨t.distance.set v ((t.distance.getD vert 0 + 1) % U32),
          t.color.set v (t.color.getD vert 0), t.queue ++ [v], t.minDist,
          t.minAnc⟩ : BfsState).color.getD v 0
          = t.color.getD vert 0 from getD_set_self htvc] at hv2
      obtain ⟨u, hu, hpath⟩ := hI.hsound2 vert hv2
      refine ⟨u, hu, ?_⟩
      show PathLen g u v ((t.distance.set v _).getD v 0)
      rw [getD_set_self htvd, hmod]
      exact PathLen.step hpath hadj
    · rw [show (⟨t.distance.set tv ((t.distance.getD vert 0 + 1) % U32),
          t.color.set tv (t.color.getD vert 0), t.queue ++ [tv], t.minDist,
          t.minAnc⟩ : BfsState).color.getD v 0
          = t.color.getD v 0 from getD_set_ne (fun he => hveq he.symm)] at hv2
      obtain ⟨u, hu, hpath⟩ := hI.hsound2 v hv2
      refine ⟨u, hu, ?_⟩
      show PathLen g u v ((t.distance.set tv _).getD v 0)
      rw [getD_set_ne (fun he => hveq he.symm)]
      exact hpath
  · intro v hv
    rw [hnz]
    by_cases hveq : v = tv
    · subst hveq
      show (t.distance.set v _).getD v 0 + 1 ≤ _
      rw [getD_set_self htvd, hmod]
      have := hI.hdb vert hcv
      omega
    · show (t.distance.set tv _).getD v 0 + 1 ≤ _
      rw [getD_set_ne (fun he => hveq he.symm)]
      rw [show (⟨t.distance.set tv ((t.distance.getD vert 0 + 1) % U32),
          t.color.set tv (t.color.getD vert 0), t.queue ++ [tv], t.minDist,
          t.minAnc⟩ : BfsState).color.getD v 0
          = t.color.getD v 0 from getD_set_ne (fun he => hveq he.symm)] at hv
      have := hI.hdb v hv
      omega
  · rcases hI.hmin with ⟨h1, h2⟩ | ⟨h1, h2, p, q, hp, hq, hpq⟩
    · exact Or.inl ⟨h1, h2⟩
    · exact Or.inr ⟨h1, h2, p, q, hp, hq, hpq⟩

end Wordnet

namespace Wordnet

open ShortestCommonAncestor

theorem minDist_le_UMAX {g : List (List Nat)} {sa sb : List Nat} {t : BfsState}
    (hI : InvCore g sa sb t) : t.minDist ≤ UMAX := by
  rcases hI.hmin with ⟨h1, _⟩ | ⟨h1, _, _⟩
  · omega
  · omega

theorem InvCore_meet_step {g : List (List Nat)} {sa sb : List Nat}
    (hg : ∀ l ∈ g, ∀ t ∈ l, t < g.length) (hn2 : 2 * g.length < U32)
    {t : BfsState} (hI : InvCore g sa sb t)
    {vert tv : Nat} (hvlt : vert < g.length) (hcv : t.color.getD vert 0 ≠ 0)
    (hadj : tv ∈ g.getD vert []) (h0 : t.color.getD tv 0 ≠ 0)
    (hne : t.color.getD tv 0 ≠ t.color.getD vert 0)
    (hcur : (t.distance.getD tv 0 + t.distance.getD vert 0 + 1) % U32 < t.minDist) :
    InvCore g sa sb ⟨t.distance, t.color, t.queue,
      (t.distance.getD tv 0 + t.distance.getD vert 0 + 1) % U32, tv⟩ ∧
    (t.distance.getD tv 0 + t.distance.getD vert 0 + 1) % U32
      = t.distance.getD tv 0 + t.distance.getD vert 0 + 1 := by
  have htvlt := adj_lt hg hvlt hadj
  have hd1 := dist_succ_le hI h0
  have hd2 := dist_succ_le hI hcv
  have hU : U32 = 4294967296 := rfl
  have hUM : UMAX = 4294967295 := rfl
  have hmod : (t.distance.getD tv 0 + t.distance.getD vert 0 + 1) % U32
      = t.distance.getD tv 0 + t.distance.getD vert 0 + 1 :=
    Nat.mod_eq_of_lt (by omega)
  have hminle : t.minDist ≤ UMAX := minDist_le_UMAX hI
  refine ⟨⟨hI.hcl, hI.hdl, hI.hcr, hI.hq, hI.hsound1, hI.hsound2, hI.hdb, ?_⟩, hmod⟩
  refine Or.inr ⟨by
    show (t.distance.getD tv 0 + t.distance.getD vert 0 + 1) % U32 < UMAX
    omega, htvlt, ?_⟩
  have hctv := hI.hcr tv
  have hcvert := hI.hcr vert
  have hcases : t.color.getD tv 0 = 1 ∧ t.color.getD vert 0 = 2 ∨
      t.color.getD tv 0 = 2 ∧ t.color.getD vert 0 = 1 := by omega
  rcases hcases with ⟨e1, e2⟩ | ⟨e1, e2⟩
  · obtain ⟨u1, hu1, hp1⟩ := hI.hsound1 tv e1
    obtain ⟨u2, hu2, hp2⟩ := hI.hsound2 vert e2
    exact ⟨t.distance.getD tv 0, t.distance.getD vert 0 + 1,
      ⟨u1, hu1, hp1⟩, ⟨u2, hu2, PathLen.step hp2 hadj⟩, by
        show _ ≤ (t.distance.getD tv 0 + t.distance.getD vert 0 + 1) % U32
        omega⟩
  · obtain ⟨u1, hu1, hp1⟩ := hI.hsound1 vert e2
    obtain ⟨u2, hu2, hp2⟩ := hI.hsound2 tv e1
    exact ⟨t.distance.getD vert 0 + 1, t.distance.getD tv 0,
      ⟨u1, hu1, PathLen.step hp1 hadj⟩, ⟨u2, hu2, hp2⟩, by
        show _ ≤ (t.distance.getD tv 0 + t.distance.getD vert 0 + 1) % U32
        omega⟩

end Wordnet

namespace Wordnet

open ShortestCommonAncestor

theorem processNeighbours_spec {g : List (List Nat)} {sa sb : List Nat}
    (hg : ∀ l ∈ g, ∀ t ∈ l, t < g.length) (hn2 : 2 * g.length < U32)
    {vert : Nat} (hvlt : vert < g.length) :
    ∀ (ns : List Nat) (t : BfsState), (∀ tv ∈ ns, tv ∈ g.getD vert []) →
      InvCore g sa sb t → t.color.getD vert 0 ≠ 0 →
      InvCore g sa sb (processNeighbours vert ns t) ∧
      (∀ v, t.color.getD v 0 ≠ 0 →
        (processNeighbours vert ns t).color.getD v 0 = t.color.getD v 0) ∧
      (∀ v, t.color.getD v 0 ≠ 0 →
        (processNeighbours vert ns t).distance.getD v 0 = t.distance.getD v 0) ∧
      (processNeighbours vert ns t).minDist ≤ t.minDist ∧
      (∃ ext, (processNeighbours vert ns t).queue = t.queue ++ ext) ∧
      (∀ v, (processNeighbours vert ns t).color.getD v 0 ≠ 0 →
        t.color.getD v 0 ≠ 0 ∨ v ∈ (processNeighbours vert ns t).queue) ∧
      (∀ tv ∈ ns, edgeOK (processNeighbours vert ns t) vert tv) ∧
      nonzeroCount (processNeighbours vert ns t).color + t.queue.length
        = nonzeroCount t.color + (processNeighbours vert ns t).queue.length := by
  intro ns
  induction ns with
  | nil =>
    intro t hns hI hcv
    refine ⟨hI, fun v h => rfl, fun v h => rfl, le_refl _,
      ⟨[], by simp [processNeighbours]⟩, fun v h => Or.inl h, by simp, ?_⟩
    show nonzeroCount t.color + t.queue.length = nonzeroCount t.color + t.queue.length
    rfl
  | cons tv ns ih =>
    intro t hns hI hcv
    have hadj : tv ∈ g.getD vert [] := hns tv (by simp)
    have htvlt := adj_lt hg hvlt hadj
    by_cases h0 : t.color.getD tv 0 = 0
    · -- colouring branch
      obtain ⟨hI2, hnz, _, htvne⟩ := InvCore_color_step hg hn2 hI hvlt hcv hadj h0
      have hcvM : (⟨t.distance.set tv ((t.distance.getD vert 0 + 1) % U32),
          t.color.set tv (t.color.getD vert 0), t.queue ++ [tv], t.minDist,
          t.minAnc⟩ : BfsState).color.getD vert 0 ≠ 0 := by
        show (t.color.set tv _).getD vert 0 ≠ 0
        rw [getD_set_ne htvne]
        exact hcv
      obtain ⟨A1, A2, A3, A4, A5, A6, A7, A8⟩ :=
        ih ⟨t.distance.set tv ((t.distance.getD vert 0 + 1) % U32),
          t.color.set tv (t.color.getD vert 0), t.queue ++ [tv], t.minDist, t.minAnc⟩
          (fun z hz => hns z (by simp [hz])) hI2 hcvM
      have hunfold : processNeighbours vert (tv :: ns) t
          = processNeighbours vert ns ⟨t.distance.set tv ((t.distance.getD vert 0 + 1) % U32),
            t.color.set tv (t.color.getD vert 0), t.queue ++ [tv], t.minDist, t.minAnc⟩ := by
        simp only [processNeighbours]
        rw [if_pos h0]
      rw [hunfold]
      have hcolMID : ∀ v, t.color.getD v 0 ≠ 0 →
          (⟨t.distance.set tv ((t.distance.getD vert 0 + 1) % U32),
            t.color.set tv (t.color.getD vert 0), t.queue ++ [tv], t.minDist,
            t.minAnc⟩ : BfsState).color.getD v 0 = t.color.getD v 0 := by
        intro v hv
        show (t.color.set tv _).getD v 0 = t.color.getD v 0
        rw [getD_set_ne (fun he => hv (by rw [← he]; exact h0))]
      have hdistMID : ∀ v, t.color.getD v 0 ≠ 0 →
          (⟨t.distance.set tv ((t.distance.getD vert 0 + 1) % U32),
            t.color.set tv (t.color.getD vert 0), t.queue ++ [tv], t.minDist,
            t.minAnc⟩ : BfsState).distance.getD v 0 = t.distance.getD v 0 := by
        intro v hv
        show (t.distance.set tv _).getD v 0 = t.distance.getD v 0
        rw [getD_set_ne (fun he => hv (by rw [← he]; exact h0))]
      refine ⟨A1, ?_, ?_, A4, ?_, ?_, ?_, ?_⟩
      · intro v hv
        rw [A2 v (by rw [hcolMID v hv]; exact hv), hcolMID v hv]
      · intro v hv
        rw [A3 v (by rw [hcolMID v hv]; exact hv), hdistMID v hv]
      · obtain ⟨ext, hext⟩ := A5
        exact ⟨tv :: ext, by rw [hext]; simp⟩
      · intro v hv
        rcases A6 v hv with hMv | hq
        · by_cases hveq : v = tv
          · subst hveq
            refine Or.inr ?_
            obtain ⟨ext, hext⟩ := A5
            rw [hext]
            simp
          · refine Or.inl ?_
            rw [hcolMID v ?hne1] at hMv
            · exact hMv
            · intro hc0
              apply hMv
              show (t.color.set tv _).getD v 0 = 0
              rw [getD_set_ne (fun he => hveq he.symm)]
              exact hc0
        · exact Or.inr hq
      · intro z hz
        rcases List.mem_cons.mp hz with hhead | htail
        · subst hhead
          have hOKM : edgeOK (⟨t.distance.set z ((t.distance.getD vert 0 + 1) % U32),
              t.color.set z (t.color.getD vert 0), t.queue ++ [z], t.minDist,
              t.minAnc⟩ : BfsState) vert z := by
            constructor
            · show (t.color.set z _).getD z 0 ≠ 0
              rw [getD_set_self (by rw [hI.hcl]; exact htvlt)]
              exact hcv
            · refine Or.inl ?_
              show (t.color.set z _).getD z 0 = (t.color.set z _).getD vert 0
              rw [getD_set_self (by rw [hI.hcl]; exact htvlt), getD_set_ne htvne]
          exact edgeOK_mono A2 A3 A4 hcvM hOKM
        · exact A7 z htail
      · have hqlen : (⟨t.distance.set tv ((t.distance.getD vert 0 + 1) % U32),
            t.color.set tv (t.color.getD vert 0), t.queue ++ [tv], t.minDist,
            t.minAnc⟩ : BfsState).queue.length = t.queue.length + 1 := by
          show (t.queue ++ [tv]).length = t.queue.length + 1
          simp
        have hnzM : nonzeroCount (⟨t.distance.set tv ((t.distance.getD vert 0 + 1) % U32),
            t.color.set tv (t.color.getD vert 0), t.queue ++ [tv], t.minDist,
            t.minAnc⟩ : BfsState).color = nonzeroCount t.color + 1 := hnz
        omega
    · -- already coloured
      by_cases hne2 : t.color.getD tv 0 ≠ t.color.getD vert 0
      · by_cases hcur : (t.distance.getD tv 0 + t.distance.getD vert 0 + 1) % U32 < t.minDist
        · -- meeting with update
          obtain ⟨hI2, hmod⟩ := InvCore_meet_step hg hn2 hI hvlt hcv hadj h0 hne2 hcur
          obtain ⟨A1, A2, A3, A4, A5, A6, A7, A8⟩ :=
            ih ⟨t.distance, t.color, t.queue,
                (t.distance.getD tv 0 + t.distance.getD vert 0 + 1) % U32, tv⟩
              (fun z hz => hns z (by simp [hz])) hI2 hcv
          have hunfold : processNeighbours vert (tv :: ns) t
              = processNeighbours vert ns ⟨t.distance, t.color, t.queue,
                (t.distance.getD tv 0 + t.distance.getD vert 0 + 1) % U32, tv⟩ := by
            simp only [processNeighbours]
            rw [if_neg h0, if_pos hne2, if_pos hcur]
          rw [hunfold]
          refine ⟨A1, A2, A3, ?_, A5, A6, ?_, A8⟩
          · have : (⟨t.distance, t.color, t.queue,
                (t.distance.getD tv 0 + t.distance.getD vert 0 + 1) % U32,
                tv⟩ : BfsState).minDist ≤ t.minDist := le_of_lt hcur
            omega
          · intro z hz
            rcases List.mem_cons.mp hz with hhead | htail
            · subst hhead
              have hOKM : edgeOK (⟨t.distance, t.color, t.queue,
                  (t.distance.getD z 0 + t.distance.getD vert 0 + 1) % U32,
                  z⟩ : BfsState) vert z := by
                refine ⟨h0, Or.inr ?_⟩
                show (t.distance.getD z 0 + t.distance.getD vert 0 + 1) % U32
                  ≤ t.distance.getD z 0 + t.distance.getD vert 0 + 1
                omega
              exact edgeOK_mono A2 A3 A4 hcv hOKM
            · exact A7 z htail
        · -- meeting without update
          obtain ⟨A1, A2, A3, A4, A5, A6, A7, A8⟩ := ih t (fun z hz => hns z (by simp [hz])) hI hcv
          have hunfold : processNeighbours vert (tv :: ns) t = processNeighbours vert ns t := by
            simp only [processNeighbours]
            rw [if_neg h0, if_pos hne2, if_neg hcur]
          rw [hunfold]
          refine ⟨A1, A2, A3, A4, A5, A6, ?_, A8⟩
          intro z hz
          rcases List.mem_cons.mp hz with hhead | htail
          · subst hhead
            have hOKM : edgeOK t vert z := by
              refine ⟨h0, Or.inr ?_⟩
              have hd1 := dist_succ_le hI h0
              have hd2 := dist_succ_le hI hcv
              have hU : U32 = 4294967296 := rfl
              have hmod : (t.distance.getD z 0 + t.distance.getD vert 0 + 1) % U32
                  = t.distance.getD z 0 + t.distance.getD vert 0 + 1 :=
                Nat.mod_eq_of_lt (by omega)
              omega
            exact edgeOK_mono A2 A3 A4 hcv hOKM
          · exact A7 z htail
      · -- same colour
        obtain ⟨A1, A2, A3, A4, A5, A6, A7, A8⟩ := ih t (fun z hz => hns z (by simp [hz])) hI hcv
        have hunfold : processNeighbours vert (tv :: ns) t = processNeighbours vert ns t := by
          simp only [processNeighbours]
          rw [if_neg h0, if_neg hne2]
        rw [hunfold]
        refine ⟨A1, A2, A3, A4, A5, A6, ?_, A8⟩
        intro z hz
        rcases List.mem_cons.mp hz with hhead | htail
        · subst hhead
          have heq : t.color.getD z 0 = t.color.getD vert 0 := by
            by_contra hc
            exact hne2 hc
          exact edgeOK_mono A2 A3 A4 hcv ⟨h0, Or.inl heq⟩
        · exact A7 z htail


end Wordnet

namespace Wordnet

open ShortestCommonAncestor

theorem bfsLoop_spec {g : List (List Nat)} {sa sb : List Nat}
    (hg : ∀ l ∈ g, ∀ t ∈ l, t < g.length) (hn2 : 2 * g.length < U32) :
    ∀ (fuel : Nat) (s : BfsState), InvCore g sa sb s → procOK g s →
      s.queue.length + (g.length - nonzeroCount s.color) ≤ fuel →
      InvCore g sa sb (bfsLoop g fuel s) ∧ procOK g (bfsLoop g fuel s) ∧
      (bfsLoop g fuel s).queue = [] ∧
      (∀ v, s.color.getD v 0 ≠ 0 → (bfsLoop g fuel s).color.getD v 0 = s.color.getD v 0) ∧
      (bfsLoop g fuel s).minDist ≤ s.minDist := by
  intro fuel
  induction fuel with
  | zero =>
    intro s hI hP hpot
    have hq : s.queue = [] := List.length_eq_zero.mp (by omega)
    exact ⟨hI, hP, hq, fun v h => rfl, le_refl _⟩
  | succ fuel ih =>
    intro s hI hP hpot
    cases hq : s.queue with
    | nil =>
      have hred : bfsLoop g (fuel + 1) s = s := by
        simp [bfsLoop, hq]
      rw [hred]
      exact ⟨hI, hP, hq, fun v h => rfl, le_refl _⟩
    | cons vert rest =>
      obtain ⟨hvlt, hcv⟩ := hI.hq vert (by rw [hq]; exact List.mem_cons_self _ _)
      have hI2 : InvCore g sa sb ⟨s.distance, s.color, rest, s.minDist, s.minAnc⟩ :=
        ⟨hI.hcl, hI.hdl, hI.hcr,
         fun v hv => hI.hq v (by rw [hq]; exact List.mem_cons_of_mem _ hv),
         hI.hsound1, hI.hsound2, hI.hdb, hI.hmin⟩
      obtain ⟨A1, A2, A3, A4, A5, A6, A7, A8⟩ :=
        processNeighbours_spec hg hn2 hvlt (g.getD vert [])
          ⟨s.distance, s.color, rest, s.minDist, s.minAnc⟩ (fun tv ht => ht) hI2 hcv
      have hPr : procOK g (processNeighbours vert (g.getD vert [])
          ⟨s.distance, s.color, rest, s.minDist, s.minAnc⟩) := by
        intro u hult hcu
        rcases A6 u hcu with hcolds | hqmem
        · rcases hP u hult hcolds with hqs | hdone
          · rw [hq] at hqs
            rcases List.mem_cons.mp hqs with hhead | htail
            · subst hhead
              exact Or.inr A7
            · refine Or.inl ?_
              obtain ⟨ext, hext⟩ := A5
              rw [hext]
              exact List.mem_append.mpr (Or.inl htail)
          · exact Or.inr (fun tv ht => edgeOK_mono A2 A3 A4 hcolds (hdone tv ht))
        · exact Or.inl hqmem
      have hpotr : (processNeighbours vert (g.getD vert [])
            ⟨s.distance, s.color, rest, s.minDist, s.minAnc⟩).queue.length +
          (g.length - nonzeroCount (processNeighbours vert (g.getD vert [])
            ⟨s.distance, s.color, rest, s.minDist, s.minAnc⟩).color) ≤ fuel := by
        have hnzle : nonzeroCount (processNeighbours vert (g.getD vert [])
            ⟨s.distance, s.color, rest, s.minDist, s.minAnc⟩).color ≤ g.length := by
          have := nonzeroCount_le (processNeighbours vert (g.getD vert [])
            ⟨s.distance, s.color, rest, s.minDist, s.minAnc⟩).color
          rw [A1.hcl] at this
          exact this
        have hqlen : s.queue.length = rest.length + 1 := by rw [hq]; simp
        have hA8 := A8
        have hnzs : nonzeroCount s.color ≤ g.length := by
          have := nonzeroCount_le s.color
          rw [hI.hcl] at this
          exact this
        have hproj1 : (⟨s.distance, s.color, rest, s.minDist,
            s.minAnc⟩ : BfsState).queue.length = rest.length := rfl
        have hproj2 : nonzeroCount (⟨s.distance, s.color, rest, s.minDist,
            s.minAnc⟩ : BfsState).color = nonzeroCount s.color := rfl
        omega
      obtain ⟨B1, B2, B3, B4, B5⟩ := ih (processNeighbours vert (g.getD vert [])
        ⟨s.distance, s.color, rest, s.minDist, s.minAnc⟩) A1 hPr hpotr
      have hunfold : bfsLoop g (fuel + 1) s = bfsLoop g fuel
          (processNeighbours vert (g.getD vert [])
            ⟨s.distance, s.color, rest, s.minDist, s.minAnc⟩) := by
        simp [bfsLoop, hq]
      rw [hunfold]
      refine ⟨B1, B2, B3, ?_, ?_⟩
      · intro v hv
        rw [B4 v (by rw [A2 v hv]; exact hv), A2 v hv]
      · exact B5.trans A4

end Wordnet

namespace Wordnet

open ShortestCommonAncestor

theorem final_colored {g : List (List Nat)} {sa sb : List Nat}
    (hg : ∀ l ∈ g, ∀ t ∈ l, t < g.length) {f : BfsState}
    (hI : InvCore g sa sb f) (hP : procOK g f) (hqe : f.queue = [])
    {u v k : Nat} (h : PathLen g u v k) (hu : u < g.length)
    (hcu : f.color.getD u 0 ≠ 0) : v < g.length ∧ f.color.getD v 0 ≠ 0 := by
  induction h with
  | refl => exact ⟨hu, hcu⟩
  | step hp he ihp =>
    obtain ⟨hvlt, hcv⟩ := ihp
    rcases hP _ hvlt hcv with hqm | hdone
    · rw [hqe] at hqm
      cases hqm
    · exact ⟨adj_lt hg hvlt he, (hdone _ he).1⟩

theorem final_cross {g : List (List Nat)} {sa sb : List Nat}
    (hg : ∀ l ∈ g, ∀ t ∈ l, t < g.length) {f : BfsState}
    (hI : InvCore g sa sb f) (hP : procOK g f) (hqe : f.queue = [])
    {u v k : Nat} (h : PathLen g u v k) (hu : u < g.length)
    (hcu : f.color.getD u 0 ≠ 0)
    (hne : f.color.getD v 0 ≠ f.color.getD u 0) :
    ∃ x y, x < g.length ∧ y ∈ g.getD x [] ∧ f.color.getD x 0 ≠ 0 ∧
      f.color.getD y 0 ≠ 0 ∧ f.color.getD y 0 ≠ f.color.getD x 0 := by
  induction h with
  | refl => exact absurd rfl hne
  | step hp he ih =>
    rename_i v2 w2 k2
    obtain ⟨hvlt, hcv⟩ := final_colored hg hI hP hqe hp hu hcu
    by_cases hcc : f.color.getD v2 0 = f.color.getD u 0
    · have hcw : f.color.getD w2 0 ≠ 0 :=
        (final_colored hg hI hP hqe (PathLen.step hp he) hu hcu).2
      exact ⟨v2, w2, hvlt, he, hcv, hcw, by rw [hcc]; exact hne⟩
    · exact ih hcc

theorem final_minDist_lt {g : List (List Nat)} {sa sb : List Nat}
    (hn2 : 2 * g.length < U32) {f : BfsState}
    (hI : InvCore g sa sb f) (hP : procOK g f) (hqe : f.queue = [])
    {x y : Nat} (hx : x < g.length) (hy : y ∈ g.getD x [])
    (hcx : f.color.getD x 0 ≠ 0) (hcy : f.color.getD y 0 ≠ 0)
    (hne : f.color.getD y 0 ≠ f.color.getD x 0) :
    f.minDist < UMAX := by
  rcases hP x hx hcx with hqm | hdone
  · rw [hqe] at hqm
    cases hqm
  · obtain ⟨_, hor⟩ := hdone y hy
    rcases hor with he | hle
    · exact absurd he hne
    · have h1 := dist_succ_le hI hcx
      have h2 := dist_succ_le hI hcy
      have hU : U32 = 4294967296 := rfl
      have hUM : UMAX = 4294967295 := rfl
      omega

theorem bfs_meets {g : List (List Nat)} {sa sb : List Nat}
    (hg : ∀ l ∈ g, ∀ t ∈ l, t < g.length) (hn2 : 2 * g.length < U32) {f : BfsState}
    (hI : InvCore g sa sb f) (hP : procOK g f) (hqe : f.queue = [])
    {va vb y p q : Nat} (hva : va < g.length) (hvb : vb < g.length)
    (hc1 : f.color.getD va 0 = 1) (hc2 : f.color.getD vb 0 = 2)
    (hpa : PathLen g va y p) (hpb : PathLen g vb y q) :
    f.minDist < UMAX := by
  have hcva : f.color.getD va 0 ≠ 0 := by omega
  have hcvb : f.color.getD vb 0 ≠ 0 := by omega
  by_cases hya : f.color.getD y 0 = f.color.getD va 0
  · have hne : f.color.getD y 0 ≠ f.color.getD vb 0 := by
      rw [hya, hc1, hc2]
      omega
    obtain ⟨x2, y2, hx2, hy2, hcx2, hcy2, hne2⟩ :=
      final_cross hg hI hP hqe hpb hvb hcvb hne
    exact final_minDist_lt hn2 hI hP hqe hx2 hy2 hcx2 hcy2 hne2
  · obtain ⟨x2, y2, hx2, hy2, hcx2, hcy2, hne2⟩ :=
      final_cross hg hI hP hqe hpa hva hcva hya
    exact final_minDist_lt hn2 hI hP hqe hx2 hy2 hcx2 hcy2 hne2

theorem seedB_spec {d : Digraph} (hwf : WF d) :
    ∀ (ids : List Nat) (t : BfsState) (sa : List Nat),
      (∀ v, t.color.getD v 0 = 1 ↔ v ∈ sa) →
      t.color.length = d.graph.length →
      (∀ id ∈ ids, ∃ vx, d.idVertMap.lookup id = some vx ∧ vx ∉ sa) →
      ∃ t2, seedB d ids t = some (Sum.inr t2) ∧
        t2.distance = t.distance ∧ t2.minDist = t.minDist ∧ t2.minAnc = t.minAnc ∧
        t2.queue = t.queue ++ vertsOf d ids ∧
        t2.color.length = t.color.length ∧
        (∀ v, t2.color.getD v 0 = if v ∈ vertsOf d ids then 2 else t.color.getD v 0) := by
  intro ids
  induction ids with
  | nil =>
    intro t sa hchar hclen hall
    refine ⟨t, rfl, rfl, rfl, rfl, by simp [vertsOf], rfl, ?_⟩
    intro v
    simp [vertsOf]
  | cons id rest ih =>
    intro t sa hchar hclen hall
    obtain ⟨vert, hvert, hout⟩ := hall id (by simp)
    have hnot1 : ¬ t.color.getD vert 0 = 1 := fun hc => hout ((hchar vert).mp hc)
    have hlt : vert < t.color.length := by
      rw [hclen, hwf.1]
      exact (WF_lookup_facts hwf hvert).1
    have hunfold : seedB d (id :: rest) t =
        seedB d rest ⟨t.distance, t.color.set vert 2, t.queue ++ [vert],
          t.minDist, t.minAnc⟩ := by
      simp only [seedB, hvert]
      rw [if_neg hnot1]
    have hchar2 : ∀ v, (t.color.set vert 2).getD v 0 = 1 ↔ v ∈ sa := by
      intro v
      by_cases hveq : v = vert
      · subst hveq
        rw [getD_set_self hlt]
        constructor
        · intro h; omega
        · intro h; exact absurd ((hchar v).mpr h) hnot1
      · rw [getD_set_ne (fun he => hveq he.symm)]
        exact hchar v
    obtain ⟨t2, h2, hd, hm, ha, hq, hclen2, hcol⟩ :=
      ih ⟨t.distance, t.color.set vert 2, t.queue ++ [vert], t.minDist, t.minAnc⟩ sa
        hchar2 (by simpa using hclen) (fun x hx => hall x (by simp [hx]))
    have hverts : vertsOf d (id :: rest) = vert :: vertsOf d rest := by
      simp [vertsOf, List.filterMap_cons, hvert]
    refine ⟨t2, by rw [hunfold]; exact h2, hd, hm, ha, ?_, by simpa using hclen2, ?_⟩
    · rw [hq, hverts]
      simp
    · intro v
      rw [hcol v, hverts]
      by_cases hv : v ∈ vertsOf d rest
      · simp [hv]
      · rw [if_neg hv]
        by_cases hveq : v = vert
        · rw [hveq]
          show (t.color.set vert 2).getD vert 0 = _
          rw [getD_set_self hlt, if_pos (List.mem_cons_self _ _)]
        · show (t.color.set vert 2).getD v 0 = _
          rw [getD_set_ne (fun he => hveq he.symm),
            if_neg (by
              intro hmem
              rcases List.mem_cons.mp hmem with h | h
              exacts [hveq h, hv h])]

end Wordnet

namespace Wordnet

open ShortestCommonAncestor

theorem ancestor_length_run {d : Digraph} (hwf : WF d) (hn2 : 2 * d.graph.length < U32)
    (A B : List Nat)
    (hA : ∀ a ∈ A, (d.idVertMap.lookup a).isSome)
    (hB : ∀ b ∈ B, (d.idVertMap.lookup b).isSome)
    (hdisj : ∀ b ∈ B, b ∉ A) :
    ∃ f : BfsState,
      ancestor_length d A B = some (d.vertIdMap.getD f.minAnc 0, f.minDist) ∧
      InvCore d.graph (vertsOf d A) (vertsOf d B) f ∧
      procOK d.graph f ∧ f.queue = [] ∧
      (∀ v ∈ vertsOf d A, f.color.getD v 0 = 1) ∧
      (∀ v ∈ vertsOf d B, f.color.getD v 0 = 2) := by
  have hg : ∀ l ∈ d.graph, ∀ t ∈ l, t < d.graph.length := hwf.2.2.2.2
  obtain ⟨s1, hs1, hd1, hm1, ha1, hq1, hclen1, hcol1⟩ :=
    seedA_spec hwf A (initState d) hA (by simp [initState])
  have hclen1b : s1.color.length = d.graph.length := by
    rw [hclen1]; simp [initState]
  have hchar : ∀ v, s1.color.getD v 0 = 1 ↔ v ∈ vertsOf d A := by
    intro v
    rw [hcol1 v]
    by_cases hv : v ∈ vertsOf d A
    · simp [hv]
    · simp only [hv, if_false]
      rw [show (initState d).color = List.replicate d.graph.length 0 from rfl,
        getD_replicate_zero]
      simp [hv]
  have hABverts : ∀ v ∈ vertsOf d A, v ∉ vertsOf d B := by
    intro v hvA hvB
    obtain ⟨a, haA, hla⟩ := mem_vertsOf.mp hvA
    obtain ⟨b, hbB, hlb⟩ := mem_vertsOf.mp hvB
    exact hdisj b hbB (WF_lookup_inj hwf hlb hla ▸ haA)
  have hBsafe : ∀ b ∈ B, ∃ vx, d.idVertMap.lookup b = some vx ∧ vx ∉ vertsOf d A := by
    intro b hb
    obtain ⟨vb, hvb⟩ := Option.isSome_iff_exists.mp (hB b hb)
    refine ⟨vb, hvb, ?_⟩
    intro hmem
    exact hABverts vb hmem (mem_vertsOf.mpr ⟨b, hb, hvb⟩)
  obtain ⟨s2, hs2, hd2, hm2, ha2, hq2, hclen2, hcol2⟩ :=
    seedB_spec hwf B s1 (vertsOf d A) hchar hclen1b hBsafe
  have hdist2 : ∀ v, s2.distance.getD v 0 = 0 := by
    intro v
    rw [hd2, hd1]
    rw [show (initState d).distance = List.replicate d.graph.length 0 from rfl]
    exact getD_replicate_zero
  have hcol2A : ∀ v ∈ vertsOf d A, s2.color.getD v 0 = 1 := by
    intro v hv
    rw [hcol2 v, if_neg (hABverts v hv)]
    exact (hchar v).mpr hv
  have hcol2B : ∀ v ∈ vertsOf d B, s2.color.getD v 0 = 2 := by
    intro v hv
    rw [hcol2 v, if_pos hv]
  have hcol2zero : ∀ v, v ∉ vertsOf d A → v ∉ vertsOf d B → s2.color.getD v 0 = 0 := by
    intro v hvA hvB
    rw [hcol2 v, if_neg hvB, hcol1 v, if_neg hvA]
    rw [show (initState d).color = List.replicate d.graph.length 0 from rfl]
    exact getD_replicate_zero
  have hccases : ∀ v, s2.color.getD v 0 = 0 ∨
      (s2.color.getD v 0 = 1 ∧ v ∈ vertsOf d A) ∨
      (s2.color.getD v 0 = 2 ∧ v ∈ vertsOf d B) := by
    intro v
    by_cases hvB : v ∈ vertsOf d B
    · exact Or.inr (Or.inr ⟨hcol2B v hvB, hvB⟩)
    · by_cases hvA : v ∈ vertsOf d A
      · exact Or.inr (Or.inl ⟨hcol2A v hvA, hvA⟩)
      · exact Or.inl (hcol2zero v hvA hvB)
  have hqueue2 : s2.queue = vertsOf d A ++ vertsOf d B := by
    rw [hq2, hq1]
    simp [initState]
  have hclen2b : s2.color.length = d.graph.length := by
    rw [hclen2]; exact hclen1b
  have hdlen2 : s2.distance.length = d.graph.length := by
    rw [hd2, hd1]
    simp [initState]
  have hI2 : InvCore d.graph (vertsOf d A) (vertsOf d B) s2 := by
    refine ⟨hclen2b, hdlen2, ?_, ?_, ?_, ?_, ?_, ?_⟩
    · intro v
      rcases hccases v with h | ⟨h, _⟩ | ⟨h, _⟩ <;> omega
    · intro v hv
      rw [hqueue2] at hv
      rcases List.mem_append.mp hv with hvA | hvB
      · exact ⟨vertsOf_lt hwf hvA, by rw [hcol2A v hvA]; omega⟩
      · exact ⟨vertsOf_lt hwf hvB, by rw [hcol2B v hvB]; omega⟩
    · intro v hv1
      rcases hccases v with h | ⟨h, hmem⟩ | ⟨h, hmem⟩
      · omega
      · exact ⟨v, hmem, by rw [hdist2 v]; exact PathLen.refl v⟩
      · omega
    · intro v hv2
      rcases hccases v with h | ⟨h, hmem⟩ | ⟨h, hmem⟩
      · omega
      · omega
      · exact ⟨v, hmem, by rw [hdist2 v]; exact PathLen.refl v⟩
    · intro v hv
      rw [hdist2 v]
      exact nonzeroCount_pos hv
    · refine Or.inl ⟨?_, ?_⟩
      · rw [hm2, hm1]; rfl
      · rw [ha2, ha1]; rfl
  have hP2 : procOK d.graph s2 := by
    intro u hult hcu
    refine Or.inl ?_
    rw [hqueue2]
    rcases hccases u with h | ⟨_, hmem⟩ | ⟨_, hmem⟩
    · exact absurd h hcu
    · exact List.mem_append.mpr (Or.inl hmem)
    · exact List.mem_append.mpr (Or.inr hmem)
  have hpot : s2.queue.length + (d.graph.length - nonzeroCount s2.color) ≤
      A.length + B.length + d.graph.length + 1 := by
    have h1 : (vertsOf d A).length ≤ A.length := List.length_filterMap_le _ _
    have h2 : (vertsOf d B).length ≤ B.length := List.length_filterMap_le _ _
    have h3 : s2.queue.length = (vertsOf d A).length + (vertsOf d B).length := by
      rw [hqueue2]; simp
    omega
  obtain ⟨B1, B2, B3, B4, B5⟩ :=
    bfsLoop_spec hg hn2 (A.length + B.length + d.graph.length + 1) s2 hI2 hP2 hpot
  refine ⟨bfsLoop d.graph (A.length + B.length + d.graph.length + 1) s2,
    ?_, B1, B2, B3, ?_, ?_⟩
  · simp only [ancestor_length, hs1, hs2]
  · intro v hv
    rw [B4 v (by rw [hcol2A v hv]; omega)]
    exact hcol2A v hv
  · intro v hv
    rw [B4 v (by rw [hcol2B v hv]; omega)]
    exact hcol2B v hv

end Wordnet

namespace Wordnet

open ShortestCommonAncestor

/-- C2 corrected: when no vertex is reachable from both source sets, the
query returns the pair whose distance component is UINT_MAX (4294967295),
never 0, and whose ancestor component is the external id of dense vertex 0
(the untouched initial value of min_distance_ancestor), an arbitrary
vertex with no relation to the query. -/
theorem claim_C2_amended {d : Digraph} (hwf : WF d) (hn2 : 2 * d.graph.length < U32)
    (A B : List Nat)
    (hA : ∀ a ∈ A, (d.idVertMap.lookup a).isSome)
    (hB : ∀ b ∈ B, (d.idVertMap.lookup b).isSome)
    (hnc : ¬ commonReach d A B) :
    ancestor_length d A B = some (d.vertIdMap.getD 0 0, UMAX) := by
  have hdisj : ∀ b ∈ B, b ∉ A := by
    intro b hb hbA
    obtain ⟨vb, hvb⟩ := Option.isSome_iff_exists.mp (hB b hb)
    exact hnc ⟨vb, vb, vb, 0, 0, mem_vertsOf.mpr ⟨b, hbA, hvb⟩,
      mem_vertsOf.mpr ⟨b, hb, hvb⟩, PathLen.refl _, PathLen.refl _⟩
  obtain ⟨f, hrun, hI, hP, hqe, _, _⟩ := ancestor_length_run hwf hn2 A B hA hB hdisj
  rcases hI.hmin with ⟨h1, h2⟩ | ⟨h1, h2, p, q, ⟨u1, hu1, hp1⟩, ⟨u2, hu2, hp2⟩, hpq⟩
  · rw [hrun, h1, h2]
  · exact (hnc ⟨f.minAnc, u1, u2, p, q, hu1, hu2, hp1, hp2⟩).elim

theorem claim_C2_witness :
    WF gDisj ∧ 2 * gDisj.graph.length < U32 ∧
    (∀ a ∈ ([1] : List Nat), (gDisj.idVertMap.lookup a).isSome) ∧
    (∀ b ∈ ([2] : List Nat), (gDisj.idVertMap.lookup b).isSome) ∧
    ¬ commonReach gDisj [1] [2] ∧
    ancestor_length gDisj [1] [2] = some (gDisj.vertIdMap.getD 0 0, UMAX) :=
  ⟨by decide, by decide, by decide, by decide, gDisj_noCommon,
    claim_C2_amended (by decide) (by decide) [1] [2] (by decide) (by decide) gDisj_noCommon⟩

/-- C4 corrected: for registered v and w the two query orders always both
succeed and agree on the zero-distance outcome (distance 0 exactly when v
equals w) and on the no-common-ancestor outcome (distance UINT_MAX in one
order exactly when in the other), but the finite nonzero distances may
differ between the orders (see the counterexample on gCycle). -/
theorem claim_C4_amended {d : Digraph} (hwf : WF d) (hn2 : 2 * d.graph.length < U32)
    (v w : Nat) (hv : (d.idVertMap.lookup v).isSome) (hw : (d.idVertMap.lookup w).isSome) :
    ∃ rv rw2, length d v w = some rv ∧ length d w v = some rw2 ∧
      (rv = 0 ↔ rw2 = 0) ∧ (rv = UMAX ↔ rw2 = UMAX) := by
  have hg : ∀ l ∈ d.graph, ∀ t ∈ l, t < d.graph.length := hwf.2.2.2.2
  have hUM : UMAX = 4294967295 := rfl
  obtain ⟨vv, hlv⟩ := Option.isSome_iff_exists.mp hv
  obtain ⟨vw, hlw⟩ := Option.isSome_iff_exists.mp hw
  by_cases hvw : v = w
  · subst hvw
    obtain ⟨s1, hs1, _, _, _, _, hclen1, hcol1⟩ :=
      seedA_spec hwf [v] (initState d) (by simpa using hv) (by simp [initState])
    have hclen1b : s1.color.length = d.graph.length := by
      rw [hclen1]; simp [initState]
    have hchar : ∀ z, s1.color.getD z 0 = 1 ↔ z ∈ vertsOf d [v] := by
      intro z
      rw [hcol1 z]
      by_cases hz : z ∈ vertsOf d [v]
      · simp [hz]
      · simp only [hz, if_false]
        rw [show (initState d).color = List.replicate d.graph.length 0 from rfl,
          getD_replicate_zero]
        simp [hz]
    have hearly : seedB d ([] ++ v :: []) s1 = some (Sum.inl (v, 0)) :=
      seedB_early hwf [] v [] s1 (vertsOf d [v]) hchar hclen1b (by simp)
        ⟨vv, hlv, mem_vertsOf.mpr ⟨v, by simp, hlv⟩⟩
    have hearly2 : seedB d [v] s1 = some (Sum.inl (v, 0)) := hearly
    have hz : ancestor_length d [v] [v] = some (v, 0) := by
      simp only [ancestor_length, hs1, hearly2]
    refine ⟨0, 0, ?_, ?_, by simp, by omega⟩
    · rw [length, hz]; rfl
    · rw [length, hz]; rfl
  · have hdisj1 : ∀ b ∈ ([w] : List Nat), b ∉ ([v] : List Nat) := by
      intro b hb
      have : b = w := by simpa using hb
      subst this
      simp
      exact fun he => hvw he.symm
    have hdisj2 : ∀ b ∈ ([v] : List Nat), b ∉ ([w] : List Nat) := by
      intro b hb
      have : b = v := by simpa using hb
      subst this
      simp
      exact hvw
    obtain ⟨f1, hrun1, hI1, hP1, hqe1, hcA1, hcB1⟩ :=
      ancestor_length_run hwf hn2 [v] [w] (by simpa using hv) (by simpa using hw) hdisj1
    obtain ⟨f2, hrun2, hI2, hP2, hqe2, hcA2, hcB2⟩ :=
      ancestor_length_run hwf hn2 [w] [v] (by simpa using hw) (by simpa using hv) hdisj2
    have hvertsv : vertsOf d [v] = [vv] := by
      simp [vertsOf, List.filterMap_cons, hlv]
    have hvertsw : vertsOf d [w] = [vw] := by
      simp [vertsOf, List.filterMap_cons, hlw]
    have h1ne0 : f1.minDist ≠ 0 := by
      rcases hI1.hmin with ⟨h1, _⟩ | ⟨_, _, p, q, ⟨u1, hu1, hp1⟩, ⟨u2, hu2, hp2⟩, hpq⟩
      · omega
      · intro h0
        rw [h0] at hpq
        have hp0 : p = 0 := by omega
        have hq0 : q = 0 := by omega
        subst hp0
        subst hq0
        have e1 := pathLen_zero hp1
        have e2 := pathLen_zero hp2
        rw [hvertsv] at hu1
        rw [hvertsw] at hu2
        have hu1v : u1 = vv := by simpa using hu1
        have hu2w : u2 = vw := by simpa using hu2
        apply hvw
        apply WF_lookup_inj hwf hlv
        rw [show vv = vw from by omega]
        exact hlw
    have h2ne0 : f2.minDist ≠ 0 := by
      rcases hI2.hmin with ⟨h1, _⟩ | ⟨_, _, p, q, ⟨u1, hu1, hp1⟩, ⟨u2, hu2, hp2⟩, hpq⟩
      · omega
      · intro h0
        rw [h0] at hpq
        have hp0 : p = 0 := by omega
        have hq0 : q = 0 := by omega
        subst hp0
        subst hq0
        have e1 := pathLen_zero hp1
        have e2 := pathLen_zero hp2
        rw [hvertsw] at hu1
        rw [hvertsv] at hu2
        have hu1v : u1 = vw := by simpa using hu1
        have hu2w : u2 = vv := by simpa using hu2
        apply hvw
        apply WF_lookup_inj hwf hlv
        rw [show vv = vw from by omega]
        exact hlw
    have h1umax : f1.minDist = UMAX ↔ ¬ commonReach d [v] [w] := by
      constructor
      · intro hum hcom
        obtain ⟨y, va, vb, p, q, hva, hvb, hp, hq⟩ := hcom
        have hc1 : f1.color.getD va 0 = 1 := hcA1 va hva
        have hc2 : f1.color.getD vb 0 = 2 := hcB1 vb hvb
        have := bfs_meets hg hn2 hI1 hP1 hqe1 (vertsOf_lt hwf hva)
          (vertsOf_lt hwf hvb) hc1 hc2 hp hq
        omega
      · intro hnc
        rcases hI1.hmin with ⟨h1, _⟩ | ⟨hlt, hanc, p, q, ⟨u1, hu1, hp1⟩, ⟨u2, hu2, hp2⟩, hpq⟩
        · exact h1
        · exact (hnc ⟨f1.minAnc, u1, u2, p, q, hu1, hu2, hp1, hp2⟩).elim
    have h2umax : f2.minDist = UMAX ↔ ¬ commonReach d [w] [v] := by
      constructor
      · intro hum hcom
        obtain ⟨y, va, vb, p, q, hva, hvb, hp, hq⟩ := hcom
        have hc1 : f2.color.getD va 0 = 1 := hcA2 va hva
        have hc2 : f2.color.getD vb 0 = 2 := hcB2 vb hvb
        have := bfs_meets hg hn2 hI2 hP2 hqe2 (vertsOf_lt hwf hva)
          (vertsOf_lt hwf hvb) hc1 hc2 hp hq
        omega
      · intro hnc
        rcases hI2.hmin with ⟨h1, _⟩ | ⟨hlt, hanc, p, q, ⟨u1, hu1, hp1⟩, ⟨u2, hu2, hp2⟩, hpq⟩
        · exact h1
        · exact (hnc ⟨f2.minAnc, u1, u2, p, q, hu1, hu2, hp1, hp2⟩).elim
    have hsymm : commonReach d [v] [w] ↔ commonReach d [w] [v] := by
      constructor <;> rintro ⟨y, va, vb, p, q, h1, h2, h3, h4⟩ <;>
        exact ⟨y, vb, va, q, p, h2, h1, h4, h3⟩
    refine ⟨f1.minDist, f2.minDist, ?_, ?_, iff_of_false h1ne0 h2ne0, ?_⟩
    · rw [length, hrun1]; rfl
    · rw [length, hrun2]; rfl
    · exact h1umax.trans ((not_congr hsymm).trans h2umax.symm)

theorem claim_C4_witness :
    WF gEdge ∧ 2 * gEdge.graph.length < U32 ∧
    (gEdge.idVertMap.lookup 1).isSome ∧ (gEdge.idVertMap.lookup 0).isSome ∧
    (∃ rv rw2, length gEdge 1 0 = some rv ∧ length gEdge 0 1 = some rw2 ∧
      (rv = 0 ↔ rw2 = 0) ∧ (rv = UMAX ↔ rw2 = UMAX)) :=
  ⟨by decide, by decide, by decide, by decide,
    claim_C4_amended (by decide) (by decide) 1 0 (by decide) (by decide)⟩

end Wordnet

namespace Wordnet

theorem getD_drop {α : Type} (xs : List α) (i j : Nat) (d : α) :
    (xs.drop i).getD j d = xs.getD (i + j) d := by
  simp [List.getD_eq_getElem?_getD, List.getElem?_drop]

theorem drop_cons_facts {α : Type} {xs : List α} {m : Nat} {xi : α} {rest : List α}
    (h : xs.drop m = xi :: rest) (d : α) :
    xs.getD m d = xi ∧ xs.drop (m + 1) = rest ∧ m < xs.length := by
  have hm : m < xs.length := by
    by_contra hge
    rw [List.drop_eq_nil_iff.mpr (by omega)] at h
    cases h
  refine ⟨?_, ?_, hm⟩
  · have := getD_drop xs m 0 d
    rw [h] at this
    simpa using this.symm
  · have := List.tail_drop xs m
    rw [h] at this
    simpa using this.symm

theorem list_map_sum {α : Type} [Inhabited α] (f : α → Nat) :
    ∀ l : List α, (l.map f).sum = ∑ t ∈ Finset.range l.length, f (l.getD t default) := by
  intro l
  induction l with
  | nil => simp
  | cons x rest ih =>
    rw [List.map_cons, List.sum_cons, ih, List.length_cons, Finset.sum_range_succ']
    have h1 : ∀ t, ((x :: rest).getD (t + 1) default) = rest.getD t default := by
      intro t
      simp [List.getD_eq_getElem?_getD]
    have h0 : ((x :: rest).getD 0 default) = x := rfl
    rw [h0]
    have h2 : ∑ k ∈ Finset.range rest.length, f ((x :: rest).getD (k + 1) default)
        = ∑ k ∈ Finset.range rest.length, f (rest.getD k default) :=
      Finset.sum_congr rfl (fun k _ => by rw [h1 k])
    rw [h2]
    omega

theorem sumDist_split {α : Type} [Inhabited α] (dist : α → α → Nat) (xs : List α)
    {m : Nat} (hm : m < xs.length) :
    sumDist dist xs m =
      (∑ j ∈ Finset.range m, dist (xs.getD m default) (xs.getD j default)) +
      ∑ t ∈ Finset.range (xs.length - (m + 1)),
        dist (xs.getD m default) (xs.getD (m + 1 + t) default) := by
  have he : xs.length = (m + 1) + (xs.length - (m + 1)) := by omega
  rw [sumDist]
  conv_lhs => rw [he]
  rw [Finset.sum_range_add, Finset.sum_range_succ]
  have h1 : ∑ j ∈ Finset.range m,
      (if j = m then 0 else dist (xs.getD m default) (xs.getD j default))
      = ∑ j ∈ Finset.range m, dist (xs.getD m default) (xs.getD j default) :=
    Finset.sum_congr rfl
      (fun j hj => if_neg (Nat.ne_of_lt (Finset.mem_range.mp hj)))
  have h2 : ∑ t ∈ Finset.range (xs.length - (m + 1)),
      (if m + 1 + t = m then 0 else dist (xs.getD m default) (xs.getD (m + 1 + t) default))
      = ∑ t ∈ Finset.range (xs.length - (m + 1)),
        dist (xs.getD m default) (xs.getD (m + 1 + t) default) :=
    Finset.sum_congr rfl (fun t _ => if_neg (by omega))
  rw [h1, h2]
  simp

theorem innerLoop_spec {α : Type} [Inhabited α] (dist : α → α → Nat) (xi : α)
    (firstPos : Nat) :
    ∀ (js : List α) (sp : Nat) (ds : List Nat),
      firstPos < sp → sp + js.length ≤ ds.length → ds.getD firstPos 0 < U32 →
      (Outcast.innerLoop dist xi firstPos js sp ds).length = ds.length ∧
      (∀ k, k < sp → k ≠ firstPos →
        (Outcast.innerLoop dist xi firstPos js sp ds).getD k 0 = ds.getD k 0) ∧
      (∀ k, sp + js.length ≤ k →
        (Outcast.innerLoop dist xi firstPos js sp ds).getD k 0 = ds.getD k 0) ∧
      (Outcast.innerLoop dist xi firstPos js sp ds).getD firstPos 0
        = (ds.getD firstPos 0 + (js.map (dist xi)).sum) % U32 ∧
      (∀ t, t < js.length →
        (Outcast.innerLoop dist xi firstPos js sp ds).getD (sp + t) 0
          = (ds.getD (sp + t) 0 + dist xi (js.getD t default)) % U32) := by
  intro js
  induction js with
  | nil =>
    intro sp ds hfp hlen hfpb
    refine ⟨rfl, fun k _ _ => rfl, fun k _ => rfl, ?_, fun t ht => by cases ht⟩
    rw [show Outcast.innerLoop dist xi firstPos [] sp ds = ds from rfl]
    rw [List.map_nil, List.sum_nil, Nat.add_zero, Nat.mod_eq_of_lt hfpb]
  | cons xj rest ih =>
    intro sp ds hfp hlen hfpb
    have hU : U32 = 4294967296 := rfl
    have hfpl : firstPos < ds.length := by
      simp only [List.length_cons] at hlen
      omega
    have hspl : sp < ds.length := by
      simp only [List.length_cons] at hlen
      omega
    have hne : firstPos ≠ sp := by omega
    have hd1fp : (ds.set firstPos ((ds.getD firstPos 0 + dist xi xj) % U32)).getD firstPos 0
        = (ds.getD firstPos 0 + dist xi xj) % U32 := getD_set_self hfpl
    have hd1sp : (ds.set firstPos ((ds.getD firstPos 0 + dist xi xj) % U32)).getD sp 0
        = ds.getD sp 0 := getD_set_ne hne
    have hunfold : Outcast.innerLoop dist xi firstPos (xj :: rest) sp ds
        = Outcast.innerLoop dist xi firstPos rest (sp + 1)
          ((ds.set firstPos ((ds.getD firstPos 0 + dist xi xj) % U32)).set sp
            (((ds.set firstPos ((ds.getD firstPos 0 + dist xi xj) % U32)).getD sp 0
              + dist xi xj) % U32)) := rfl
    have hlen2 : ((ds.set firstPos ((ds.getD firstPos 0 + dist xi xj) % U32)).set sp
        (((ds.set firstPos ((ds.getD firstPos 0 + dist xi xj) % U32)).getD sp 0
          + dist xi xj) % U32)).length = ds.length := by
      simp
    have hd2fp : ((ds.set firstPos ((ds.getD firstPos 0 + dist xi xj) % U32)).set sp
        (((ds.set firstPos ((ds.getD firstPos 0 + dist xi xj) % U32)).getD sp 0
          + dist xi xj) % U32)).getD firstPos 0 = (ds.getD firstPos 0 + dist xi xj) % U32 := by
      rw [getD_set_ne (fun he => hne he.symm), hd1fp]
    have hd2sp : ((ds.set firstPos ((ds.getD firstPos 0 + dist xi xj) % U32)).set sp
        (((ds.set firstPos ((ds.getD firstPos 0 + dist xi xj) % U32)).getD sp 0
          + dist xi xj) % U32)).getD sp 0 = (ds.getD sp 0 + dist xi xj) % U32 := by
      rw [getD_set_self (by simpa using hspl), hd1sp]
    have hd2other : ∀ k, k ≠ firstPos → k ≠ sp →
        ((ds.set firstPos ((ds.getD firstPos 0 + dist xi xj) % U32)).set sp
          (((ds.set firstPos ((ds.getD firstPos 0 + dist xi xj) % U32)).getD sp 0
            + dist xi xj) % U32)).getD k 0 = ds.getD k 0 := by
      intro k hk1 hk2
      rw [getD_set_ne (fun he => hk2 he.symm), getD_set_ne (fun he => hk1 he.symm)]
    obtain ⟨I1, I2, I3, I4, I5⟩ := ih (sp + 1)
      ((ds.set firstPos ((ds.getD firstPos 0 + dist xi xj) % U32)).set sp
        (((ds.set firstPos ((ds.getD firstPos 0 + dist xi xj) % U32)).getD sp 0
          + dist xi xj) % U32))
      (by omega)
      (by rw [hlen2]; simp only [List.length_cons] at hlen; omega)
      (by rw [hd2fp]; exact Nat.mod_lt _ (by omega))
    rw [hunfold]
    refine ⟨by rw [I1, hlen2], ?_, ?_, ?_, ?_⟩
    · intro k hk hkfp
      rw [I2 k (by omega) hkfp, hd2other k hkfp (by omega)]
    · intro k hk
      simp only [List.length_cons] at hk
      rw [I3 k (by omega), hd2other k (by omega) (by omega)]
    · rw [I4, hd2fp, Nat.mod_add_mod, List.map_cons, List.sum_cons]
      have : ds.getD firstPos 0 + dist xi xj + (rest.map (dist xi)).sum
          = ds.getD firstPos 0 + (dist xi xj + (rest.map (dist xi)).sum) := by omega
      rw [this]
    · intro t ht
      cases t with
      | zero =>
        rw [show sp + 0 = sp from rfl]
        rw [I2 sp (by omega) (by omega), hd2sp]
        rfl
      | succ t2 =>
        simp only [List.length_cons] at ht
        have := I5 t2 (by omega)
        rw [show sp + (t2 + 1) = sp + 1 + t2 from by omega]
        rw [this, hd2other (sp + 1 + t2) (by omega) (by omega)]
        rfl

end Wordnet

namespace Wordnet

theorem inner_distances_step {α : Type} [Inhabited α] (dist : α → α → Nat) (xs : List α)
    (hsym : ∀ a b, dist a b = dist b a)
    (hsmall : ∀ i, i < xs.length → sumDist dist xs i < U32)
    {m : Nat} (hm : m < xs.length)
    {ds0 : List Nat} (hlen : ds0.length = xs.length)
    (hbelow : ∀ k, k < m → ds0.getD k 0 = sumDist dist xs k)
    (habove : ∀ k, m ≤ k → k < xs.length → ds0.getD k 0 =
      (∑ j ∈ Finset.range m, dist (xs.getD k default) (xs.getD j default)) % U32) :
    (Outcast.innerLoop dist (xs.getD m default) m (xs.drop (m + 1)) (m + 1) ds0).length
      = xs.length ∧
    (∀ k, k < m + 1 →
      (Outcast.innerLoop dist (xs.getD m default) m (xs.drop (m + 1)) (m + 1) ds0).getD k 0
        = sumDist dist xs k) ∧
    (∀ k, m + 1 ≤ k → k < xs.length →
      (Outcast.innerLoop dist (xs.getD m default) m (xs.drop (m + 1)) (m + 1) ds0).getD k 0
        = (∑ j ∈ Finset.range (m + 1),
            dist (xs.getD k default) (xs.getD j default)) % U32) := by
  have hU : U32 = 4294967296 := rfl
  have hjslen : (xs.drop (m + 1)).length = xs.length - (m + 1) := List.length_drop _ _
  have hfpb : ds0.getD m 0 < U32 := by
    rw [habove m (le_refl m) hm]
    exact Nat.mod_lt _ (by omega)
  obtain ⟨I1, I2, I3, I4, I5⟩ := innerLoop_spec dist (xs.getD m default) m
    (xs.drop (m + 1)) (m + 1) ds0 (by omega) (by omega) hfpb
  refine ⟨by rw [I1, hlen], ?_, ?_⟩
  · intro k hk
    rcases Nat.lt_or_ge k m with hkm | hkm
    · rw [I2 k (by omega) (by omega)]
      exact hbelow k hkm
    · have hkeq : k = m := by omega
      subst hkeq
      rw [I4, habove k (le_refl k) hm, Nat.mod_add_mod]
      have hL : ((xs.drop (k + 1)).map (dist (xs.getD k default))).sum
          = ∑ t ∈ Finset.range (xs.length - (k + 1)),
              dist (xs.getD k default) (xs.getD (k + 1 + t) default) := by
        rw [list_map_sum, hjslen]
        refine Finset.sum_congr rfl (fun t _ => ?_)
        rw [getD_drop]
      rw [hL, ← sumDist_split dist xs hm]
      exact Nat.mod_eq_of_lt (hsmall k hm)
  · intro k hk1 hk2
    have ht : k - (m + 1) < (xs.drop (m + 1)).length := by omega
    have hke : m + 1 + (k - (m + 1)) = k := by omega
    have := I5 (k - (m + 1)) ht
    rw [hke] at this
    rw [this, habove k (by omega) hk2, Nat.mod_add_mod]
    rw [getD_drop, hke, Finset.sum_range_succ]
    rw [hsym (xs.getD m default) (xs.getD k default)]

theorem outerLoop_spec {α : Type} [Inhabited α] (dist : α → α → Nat) (xs : List α)
    (hsym : ∀ a b, dist a b = dist b a)
    (hsmall : ∀ i, i < xs.length → sumDist dist xs i < U32) :
    ∀ (rest : List α) (m : Nat) (st : Outcast.OutState α),
      xs.drop m = rest → 1 ≤ m → m ≤ xs.length →
      st.distances.length = xs.length →
      (∀ k, k < m → st.distances.getD k 0 = sumDist dist xs k) →
      (∀ k, m ≤ k → k < xs.length → st.distances.getD k 0 =
        (∑ j ∈ Finset.range m, dist (xs.getD k default) (xs.getD j default)) % U32) →
      st.answer < m →
      st.answerWord = some (xs.getD st.answer default) →
      (∀ j, j < m → sumDist dist xs j ≤ sumDist dist xs st.answer) →
      (∀ j, j < st.answer → sumDist dist xs j < sumDist dist xs st.answer) →
      (st.repeated = true ↔ ∃ j, st.answer < j ∧ j < m ∧
        sumDist dist xs j = sumDist dist xs st.answer) →
      (Outcast.outerLoop dist rest m st).answer < xs.length ∧
      (Outcast.outerLoop dist rest m st).answerWord
        = some (xs.getD (Outcast.outerLoop dist rest m st).answer default) ∧
      (∀ j, j < xs.length → sumDist dist xs j
        ≤ sumDist dist xs (Outcast.outerLoop dist rest m st).answer) ∧
      (∀ j, j < (Outcast.outerLoop dist rest m st).answer →
        sumDist dist xs j < sumDist dist xs (Outcast.outerLoop dist rest m st).answer) ∧
      ((Outcast.outerLoop dist rest m st).repeated = true ↔
        ∃ j, (Outcast.outerLoop dist rest m st).answer < j ∧ j < xs.length ∧
          sumDist dist xs j
            = sumDist dist xs (Outcast.outerLoop dist rest m st).answer) := by
  intro rest
  induction rest with
  | nil =>
    intro m st hdrop hm1 hmle hdl hbelow habove hans hword hmax hstrict hrep
    have hmlen : xs.length ≤ m := List.drop_eq_nil_iff.mp hdrop
    have hmeq : m = xs.length := by omega
    subst hmeq
    rw [show Outcast.outerLoop dist ([] : List α) xs.length st = st from rfl]
    exact ⟨hans, hword, hmax, hstrict, hrep⟩
  | cons xi rest2 ih =>
    intro m st hdrop hm1 hmle hdl hbelow habove hans hword hmax hstrict hrep
    obtain ⟨hxi, hdrop2, hmlt⟩ := drop_cons_facts hdrop default
    subst hxi
    obtain ⟨D1, D2, D3⟩ :=
      inner_distances_step dist xs hsym hsmall hmlt hdl hbelow habove
    rw [hdrop2] at D1 D2 D3
    have hcm : (Outcast.innerLoop dist (xs.getD m default) m rest2 (m + 1)
        st.distances).getD m 0 = sumDist dist xs m := D2 m (by omega)
    have hca : (Outcast.innerLoop dist (xs.getD m default) m rest2 (m + 1)
        st.distances).getD st.answer 0 = sumDist dist xs st.answer :=
      D2 st.answer (by omega)
    have hunfold : Outcast.outerLoop dist (xs.getD m default :: rest2) m st =
        if (Outcast.innerLoop dist (xs.getD m default) m rest2 (m + 1)
              st.distances).getD m 0 >
            (Outcast.innerLoop dist (xs.getD m default) m rest2 (m + 1)
              st.distances).getD st.answer 0 ∨ m = 0 then
          Outcast.outerLoop dist rest2 (m + 1)
            ⟨Outcast.innerLoop dist (xs.getD m default) m rest2 (m + 1) st.distances,
             m, some (xs.getD m default), false⟩
        else if (Outcast.innerLoop dist (xs.getD m default) m rest2 (m + 1)
              st.distances).getD m 0 =
            (Outcast.innerLoop dist (xs.getD m default) m rest2 (m + 1)
              st.distances).getD st.answer 0 then
          Outcast.outerLoop dist rest2 (m + 1)
            ⟨Outcast.innerLoop dist (xs.getD m default) m rest2 (m + 1) st.distances,
             st.answer, st.answerWord, true⟩
        else
          Outcast.outerLoop dist rest2 (m + 1)
            ⟨Outcast.innerLoop dist (xs.getD m default) m rest2 (m + 1) st.distances,
             st.answer, st.answerWord, st.repeated⟩ := rfl
    by_cases hgt : sumDist dist xs st.answer < sumDist dist xs m
    · rw [hunfold, if_pos (Or.inl (by rw [hcm, hca]; exact hgt))]
      refine ih (m + 1)
        ⟨Outcast.innerLoop dist (xs.getD m default) m rest2 (m + 1) st.distances,
         m, some (xs.getD m default), false⟩
        hdrop2 (by omega) (by omega) D1 D2 D3
        (by show m < m + 1; omega) rfl ?_ ?_ ?_
      · intro j hj
        show sumDist dist xs j ≤ sumDist dist xs m
        rcases Nat.lt_or_ge j m with hjm | hjm
        · exact le_of_lt (lt_of_le_of_lt (hmax j hjm) hgt)
        · have : j = m := by omega
          subst this
          exact le_refl _
      · intro j hj
        have hjm : j < m := hj
        show sumDist dist xs j < sumDist dist xs m
        exact lt_of_le_of_lt (hmax j hjm) hgt
      · constructor
        · intro h
          exact Bool.noConfusion (show false = true from h)
        · rintro ⟨j, h1, h2, _⟩
          have h1b : m < j := h1
          have h2b : j < m + 1 := h2
          omega
    · by_cases heq : sumDist dist xs m = sumDist dist xs st.answer
      · rw [hunfold, if_neg (by
            rw [hcm, hca]
            rintro (h | h)
            · omega
            · omega),
          if_pos (by rw [hcm, hca]; exact heq)]
        refine ih (m + 1)
          ⟨Outcast.innerLoop dist (xs.getD m default) m rest2 (m + 1) st.distances,
           st.answer, st.answerWord, true⟩
          hdrop2 (by omega) (by omega) D1 D2 D3
          (by show st.answer < m + 1; omega) hword ?_ ?_ ?_
        · intro j hj
          rcases Nat.lt_or_ge j m with hjm | hjm
          · exact hmax j hjm
          · have : j = m := by omega
            subst this
            exact le_of_eq heq
        · exact hstrict
        · constructor
          · intro _
            exact ⟨m, hans, by omega, heq⟩
          · intro _
            rfl
      · have hlt : sumDist dist xs m < sumDist dist xs st.answer := by
          have := hmax
          omega
        rw [hunfold, if_neg (by
            rw [hcm, hca]
            rintro (h | h)
            · omega
            · omega),
          if_neg (by rw [hcm, hca]; exact heq)]
        refine ih (m + 1)
          ⟨Outcast.innerLoop dist (xs.getD m default) m rest2 (m + 1) st.distances,
           st.answer, st.answerWord, st.repeated⟩
          hdrop2 (by omega) (by omega) D1 D2 D3
          (by show st.answer < m + 1; omega) hword ?_ hstrict ?_
        · intro j hj
          rcases Nat.lt_or_ge j m with hjm | hjm
          · exact hmax j hjm
          · have : j = m := by omega
            subst this
            exact le_of_lt hlt
        · show st.repeated = true ↔ _
          rw [hrep]
          constructor
          · rintro ⟨j, h1, h2, h3⟩
            exact ⟨j, h1, by omega, h3⟩
          · rintro ⟨j, h1, h2, h3⟩
            refine ⟨j, h1, ?_, h3⟩
            rcases Nat.lt_or_ge j m with hjm | hjm
            · exact hjm
            · have : j = m := by omega
              subst this
              exact absurd h3 heq

end Wordnet

namespace Wordnet

theorem outerLoop_zero {α : Type} (dist : α → α → Nat) (y : α) (ys : List α)
    (st : Outcast.OutState α) :
    Outcast.outerLoop dist (y :: ys) 0 st
      = Outcast.outerLoop dist ys 1
          ⟨Outcast.innerLoop dist y 0 ys 1 st.distances, 0, some y, false⟩ := by
  have h : Outcast.outerLoop dist (y :: ys) 0 st =
      if (Outcast.innerLoop dist y 0 ys 1 st.distances).getD 0 0 >
          (Outcast.innerLoop dist y 0 ys 1 st.distances).getD st.answer 0 ∨ (0 : Nat) = 0 then
        Outcast.outerLoop dist ys 1
          ⟨Outcast.innerLoop dist y 0 ys 1 st.distances, 0, some y, false⟩
      else if (Outcast.innerLoop dist y 0 ys 1 st.distances).getD 0 0 =
          (Outcast.innerLoop dist y 0 ys 1 st.distances).getD st.answer 0 then
        Outcast.outerLoop dist ys 1
          ⟨Outcast.innerLoop dist y 0 ys 1 st.distances, st.answer, st.answerWord, true⟩
      else
        Outcast.outerLoop dist ys 1
          ⟨Outcast.innerLoop dist y 0 ys 1 st.distances, st.answer, st.answerWord,
           st.repeated⟩ := rfl
  rw [h, if_pos (Or.inr rfl)]

/-- C8: outcast returns a word exactly when the group has at least three
words and that word is the unique strict maximiser of the total distance
to the other words of the group; groups of at most two words and groups
whose maximal total is attained twice give the absent result.  The words
are listed in ascending order (the iteration order of the std::set), dist
is the symmetric WordNet distance oracle, and the totals are assumed not
to overflow the unsigned accumulator. -/
theorem claim_C8 {α : Type} [Inhabited α] (dist : α → α → Nat) (nouns : List α)
    (hsym : ∀ a b, dist a b = dist b a)
    (hsmall : ∀ i, i < nouns.length → sumDist dist nouns i < U32) (x : α) :
    Outcast.outcast dist nouns = some x ↔
      3 ≤ nouns.length ∧ ∃ i, i < nouns.length ∧ nouns.getD i default = x ∧
        ∀ j, j < nouns.length → j ≠ i →
          sumDist dist nouns j < sumDist dist nouns i := by
  have hout : Outcast.outcast dist nouns =
      if nouns.length ≤ 2 then none
      else if (Outcast.outerLoop dist nouns 0
          ⟨List.replicate nouns.length 0, 0, none, false⟩).repeated then none
      else (Outcast.outerLoop dist nouns 0
          ⟨List.replicate nouns.length 0, 0, none, false⟩).answerWord := rfl
  by_cases hlen : nouns.length ≤ 2
  · rw [hout, if_pos hlen]
    constructor
    · intro h
      cases h
    · rintro ⟨h3, _⟩
      omega
  · rw [hout, if_neg hlen]
    have hlen3 : 3 ≤ nouns.length := by omega
    obtain ⟨x0, rest0, he⟩ : ∃ x0 rest0, nouns = x0 :: rest0 := by
      cases hnn : nouns with
      | nil => rw [hnn] at hlen3; simp at hlen3
      | cons a b => exact ⟨a, b, rfl⟩
    have hget0 : nouns.getD 0 default = x0 := by rw [he]; rfl
    have hdrop1 : nouns.drop 1 = rest0 := by rw [he]; rfl
    obtain ⟨E1, E2, E3⟩ :=
      inner_distances_step dist nouns hsym hsmall (show 0 < nouns.length by omega)
        (show (List.replicate nouns.length (0 : Nat)).length = nouns.length by simp)
        (fun k hk => by omega)
        (fun k hk1 hk2 => by
          rw [getD_replicate_zero]
          simp)
    rw [hget0, hdrop1] at E1 E2 E3
    have hstep : Outcast.outerLoop dist nouns 0
        ⟨List.replicate nouns.length 0, 0, none, false⟩
        = Outcast.outerLoop dist rest0 1
          ⟨Outcast.innerLoop dist x0 0 rest0 1 (List.replicate nouns.length 0),
           0, some x0, false⟩ :=
      (congrArg (fun l => Outcast.outerLoop dist l 0
        ⟨List.replicate nouns.length 0, 0, none, false⟩) he).trans
        (outerLoop_zero dist x0 rest0 ⟨List.replicate nouns.length 0, 0, none, false⟩)
    obtain ⟨R1, R2, R3, R4, R5⟩ :=
      outerLoop_spec dist nouns hsym hsmall rest0 1
        ⟨Outcast.innerLoop dist x0 0 rest0 1 (List.replicate nouns.length 0),
         0, some x0, false⟩
        hdrop1 (le_refl 1) (by omega) E1
        (fun k hk => E2 k hk)
        (fun k hk1 hk2 => E3 k hk1 hk2)
        (by show (0 : Nat) < 1; omega)
        (by show some x0 = some (nouns.getD 0 default); rw [hget0])
        (fun j hj => by
          have : j = 0 := by omega
          subst this
          exact le_refl _)
        (fun j hj => by
          have : j < 0 := hj
          omega)
        (by
          constructor
          · intro h
            exact Bool.noConfusion (show false = true from h)
          · rintro ⟨j, h1, h2, _⟩
            have h1b : (0 : Nat) < j := h1
            omega)
    rw [hstep]
    constructor
    · intro h
      by_cases hrep : (Outcast.outerLoop dist rest0 1
          ⟨Outcast.innerLoop dist x0 0 rest0 1 (List.replicate nouns.length 0),
           0, some x0, false⟩).repeated
      · rw [if_pos hrep] at h
        cases h
      · rw [if_neg hrep] at h
        rw [R2] at h
        have hx : nouns.getD (Outcast.outerLoop dist rest0 1
            ⟨Outcast.innerLoop dist x0 0 rest0 1 (List.replicate nouns.length 0),
             0, some x0, false⟩).answer default = x := by
          cases h
          rfl
        refine ⟨hlen3, (Outcast.outerLoop dist rest0 1
            ⟨Outcast.innerLoop dist x0 0 rest0 1 (List.replicate nouns.length 0),
             0, some x0, false⟩).answer, R1, hx, ?_⟩
        intro j hj hne
        rcases Nat.lt_or_ge j (Outcast.outerLoop dist rest0 1
            ⟨Outcast.innerLoop dist x0 0 rest0 1 (List.replicate nouns.length 0),
             0, some x0, false⟩).answer with hlt | hge
        · exact R4 j hlt
        · have hgt : (Outcast.outerLoop dist rest0 1
              ⟨Outcast.innerLoop dist x0 0 rest0 1 (List.replicate nouns.length 0),
               0, some x0, false⟩).answer < j := by omega
          have hle := R3 j hj
          rcases Nat.lt_or_ge (sumDist dist nouns j) (sumDist dist nouns
              (Outcast.outerLoop dist rest0 1
                ⟨Outcast.innerLoop dist x0 0 rest0 1 (List.replicate nouns.length 0),
                 0, some x0, false⟩).answer) with hl2 | hg2
          · exact hl2
          · have heq2 : sumDist dist nouns j = sumDist dist nouns
                (Outcast.outerLoop dist rest0 1
                  ⟨Outcast.innerLoop dist x0 0 rest0 1 (List.replicate nouns.length 0),
                   0, some x0, false⟩).answer := by omega
            have := R5.mpr ⟨j, hgt, hj, heq2⟩
            exact absurd this hrep
    · rintro ⟨h3, i, hi, hxi, hstrictmax⟩
      have hansi : (Outcast.outerLoop dist rest0 1
          ⟨Outcast.innerLoop dist x0 0 rest0 1 (List.replicate nouns.length 0),
           0, some x0, false⟩).answer = i := by
        by_contra hne
        have h1 := R3 i hi
        have h2 := hstrictmax (Outcast.outerLoop dist rest0 1
            ⟨Outcast.innerLoop dist x0 0 rest0 1 (List.replicate nouns.length 0),
             0, some x0, false⟩).answer R1 hne
        omega
      have hrep : (Outcast.outerLoop dist rest0 1
          ⟨Outcast.innerLoop dist x0 0 rest0 1 (List.replicate nouns.length 0),
           0, some x0, false⟩).repeated = false := by
        cases hb : (Outcast.outerLoop dist rest0 1
            ⟨Outcast.innerLoop dist x0 0 rest0 1 (List.replicate nouns.length 0),
             0, some x0, false⟩).repeated
        · rfl
        · obtain ⟨j, hj1, hj2, hj3⟩ := R5.mp hb
          rw [hansi] at hj1 hj3
          have := hstrictmax j hj2 (by omega)
          omega
      rw [if_neg (by rw [hrep]; exact Bool.false_ne_true), R2, hansi, hxi]

end Wordnet

namespace Wordnet

theorem claim_C8_witness :
    (∀ a b : Nat, (fun a b : Nat => a + b) a b = (fun a b : Nat => a + b) b a) ∧
    (∀ i, i < ([1, 2, 5] : List Nat).length →
      sumDist (fun a b : Nat => a + b) [1, 2, 5] i < U32) ∧
    (Outcast.outcast (fun a b : Nat => a + b) [1, 2, 5] = some 5 ↔
      3 ≤ ([1, 2, 5] : List Nat).length ∧ ∃ i, i < ([1, 2, 5] : List Nat).length ∧
        ([1, 2, 5] : List Nat).getD i default = 5 ∧
        ∀ j, j < ([1, 2, 5] : List Nat).length → j ≠ i →
          sumDist (fun a b : Nat => a + b) [1, 2, 5] j
            < sumDist (fun a b : Nat => a + b) [1, 2, 5] i) :=
  ⟨fun a b => Nat.add_comm a b, by decide,
    claim_C8 (fun a b : Nat => a + b) [1, 2, 5] (fun a b => Nat.add_comm a b) (by decide) 5⟩

end Wordnet
